import Mathlib

/-!
Verification of the line-oriented expression evaluator in `src/calculator.ts`.

The evaluator delegates arithmetic to an external engine (mathjs).  The engine
is modelled as an abstract structure `Engine V` over an abstract value type `V`:
its `evaluate` either returns a value together with the (possibly mutated)
variable scope, or fails (the TypeScript code observes this as a thrown
exception).  Everything the repository itself implements — percent-literal
expansion, chained-operator prefixing, non-ASCII identifier aliasing, the line
classifier, the per-line state threading, and the presentation formatter — is
embedded directly, with regular expressions translated into equivalent
character-list scanners.

Strings are processed as their underlying character lists (`String.data`).
-/

namespace Calcnote

/-- Outcome of one call to the external engine's `evaluate`: either a value and
the scope after the call, or a failure (a thrown exception in TypeScript),
also with the scope as the engine left it. -/
inductive EvalOutcome (V : Type) where
  | ok (value : V) (scope : List (String × V))
  | err (scope : List (String × V))
deriving DecidableEq

/-- Abstract interface of the external arithmetic engine (mathjs instance).
`typeOf`, `format` (with the fixed `AUTO_FMT` options), `toNumber` (with
`none` modelling a thrown conversion failure) and `isNullish` (the
`val === undefined || val === null` test) are total functions on values. -/
structure Engine (V : Type) where
  evaluate : String → List (String × V) → EvalOutcome V
  typeOf : V → String
  format : V → String
  toNumber : V → Option Int
  isNullish : V → Bool

/-- Mirrors the TypeScript interface `LineResult`:
`{ display: string | null; numeric: number; error: boolean }`. -/
structure LineResult where
  display : Option String
  numeric : Int
  error : Bool
deriving DecidableEq

/-- Mirrors the TypeScript interface `CalcResult { lines: LineResult[] }`. -/
structure CalcResult where
  lines : List LineResult
deriving DecidableEq

/-- Helper: the length of `dropWhile` never exceeds the input length. -/
theorem length_dropWhile_le {α : Type _} (p : α → Bool) (l : List α) :
    (l.dropWhile p).length ≤ l.length := by
  induction l with
  | nil => simp [List.dropWhile]
  | cons c cs ih =>
    by_cases h : p c <;> simp [List.dropWhile, h] <;> omega

/-- Helper: `takeWhile` and `dropWhile` lengths add up to the input length. -/
theorem length_takeWhile_add_dropWhile {α : Type _} (p : α → Bool) (l : List α) :
    (l.takeWhile p).length + (l.dropWhile p).length = l.length := by
  conv_rhs => rw [← List.takeWhile_append_dropWhile p l]
  rw [List.length_append]

/-- Attempt to match the regex `(\d+(?:\.\d+)?)%` of `preprocessPercent` at the
start of `l`.  On success, returns the captured literal (the digits, with the
optional fractional part) and the remaining input after the `%`.  Greedy
matching with backtracking reduces to: take the maximal digit run, then either
a `.` with a maximal nonempty digit run and `%`, or `%` directly (any
backtracked shorter digit run is followed by a digit and can never match). -/
def matchPercent (l : List Char) : Option (List Char × List Char) :=
  let d1 := l.takeWhile Char.isDigit
  if d1.isEmpty then none
  else
    match l.dropWhile Char.isDigit with
    | '%' :: r => some (d1, r)
    | '.' :: r2 =>
      let d2 := r2.takeWhile Char.isDigit
      if d2.isEmpty then none
      else
        match r2.dropWhile Char.isDigit with
        | '%' :: r => some (d1 ++ '.' :: d2, r)
        | _ => none
    | _ => none

/-- Helper: a successful `matchPercent` consumes at least one character. -/
theorem matchPercent_rest_lt {l lit rest : List Char}
    (h : matchPercent l = some (lit, rest)) : rest.length < l.length := by
  unfold matchPercent at h
  simp only at h
  have hlen1 := length_takeWhile_add_dropWhile Char.isDigit l
  split at h
  · exact absurd h (by simp)
  · rename_i hd1
    have hd1' : 0 < (l.takeWhile Char.isDigit).length := by
      cases hne : l.takeWhile Char.isDigit with
      | nil => rw [hne] at hd1; simp at hd1
      | cons a as => simp [hne]
    split at h
    · rename_i r hr
      have hr' : r.length + 1 = (l.dropWhile Char.isDigit).length := by
        rw [hr]; simp
      simp only [Option.some.injEq, Prod.mk.injEq] at h
      obtain ⟨-, h2⟩ := h
      subst h2
      omega
    · rename_i r2 hr2
      have hlen2 : r2.length + 1 = (l.dropWhile Char.isDigit).length := by
        rw [hr2]; simp
      have hlen3 := length_takeWhile_add_dropWhile Char.isDigit r2
      split at h
      · exact absurd h (by simp)
      · split at h
        · rename_i r hr
          have hr' : r.length + 1 = (r2.dropWhile Char.isDigit).length := by
            rw [hr]; simp
          simp only [Option.some.injEq, Prod.mk.injEq] at h
          obtain ⟨-, h2⟩ := h
          subst h2
          omega
        · exact absurd h (by simp)
    · exact absurd h (by simp)

/-- Scanner for `preprocessPercent`: the global replace of
`/(\d+(?:\.\d+)?)%/g` by `($1/100)`.  At each position, a match is attempted;
on success its replacement is emitted and scanning resumes after the match,
otherwise the character is copied and scanning advances by one.  Structural
recursion on a fuel bound (any fuel at least the input length gives the same
result, see `percentAuxF_irrel`), so that the scanner evaluates by kernel
reduction. -/
def percentAuxF : Nat → List Char → List Char
  | _, [] => []
  | 0, l => l
  | fuel + 1, c :: cs =>
    match matchPercent (c :: cs) with
    | some (lit, rest) =>
      '(' :: (lit ++ '/' :: '1' :: '0' :: '0' :: ')' :: percentAuxF fuel rest)
    | none => c :: percentAuxF fuel cs

/-- The percent scanner with fuel equal to the input length. -/
def percentAux (l : List Char) : List Char := percentAuxF l.length l

/-- Helper: the fuel argument of `percentAuxF` is irrelevant as long as it
bounds the input length. -/
theorem percentAuxF_irrel :
    ∀ (f1 f2 : Nat) (l : List Char), l.length ≤ f1 → l.length ≤ f2 →
      percentAuxF f1 l = percentAuxF f2 l := by
  intro f1
  induction f1 with
  | zero =>
    intro f2 l h1 h2
    have : l = [] := List.length_eq_zero.1 (Nat.le_zero.1 h1)
    subst this
    cases f2 <;> rfl
  | succ f1 ih =>
    intro f2 l h1 h2
    cases l with
    | nil => cases f2 <;> rfl
    | cons c cs =>
      cases f2 with
      | zero => simp at h2
      | succ f2 =>
        simp only [percentAuxF]
        cases h : matchPercent (c :: cs) with
        | some p =>
          obtain ⟨lit, rest⟩ := p
          have hr := matchPercent_rest_lt h
          simp only [List.length_cons] at hr h1 h2
          show '(' :: (lit ++ '/' :: '1' :: '0' :: '0' :: ')' :: percentAuxF f1 rest)
              = '(' :: (lit ++ '/' :: '1' :: '0' :: '0' :: ')' :: percentAuxF f2 rest)
          rw [ih f2 rest (by omega) (by omega)]
        | none =>
          simp only [List.length_cons] at h1 h2
          show c :: percentAuxF f1 cs = c :: percentAuxF f2 cs
          rw [ih f2 cs (by omega) (by omega)]

/-- Unfolding equation of `percentAux` on a successful match. -/
theorem percentAux_cons_some {c : Char} {cs lit rest : List Char}
    (h : matchPercent (c :: cs) = some (lit, rest)) :
    percentAux (c :: cs) =
      '(' :: (lit ++ '/' :: '1' :: '0' :: '0' :: ')' :: percentAux rest) := by
  have hr := matchPercent_rest_lt h
  simp only [List.length_cons] at hr
  unfold percentAux
  simp only [List.length_cons, percentAuxF, h]
  rw [percentAuxF_irrel cs.length rest.length rest (by omega) (Nat.le_refl _)]

/-- Unfolding equation of `percentAux` on a failed match. -/
theorem percentAux_cons_none {c : Char} {cs : List Char}
    (h : matchPercent (c :: cs) = none) :
    percentAux (c :: cs) = c :: percentAux cs := by
  unfold percentAux
  simp only [List.length_cons, percentAuxF, h]

/-- Unfolding equation of `percentAux` on the empty list. -/
theorem percentAux_nil : percentAux [] = [] := rfl

/-- Mirrors `preprocessPercent`: rewrite every numeric literal immediately
followed by `%` into `(literal/100)`. -/
def preprocessPercent (line : String) : String := ⟨percentAux line.data⟩

/-- Per-pass Chinese-variable mapping context, mirroring the TypeScript
interface `VarMapping { cnToAlias: Map<string, string>; counter: number }`.
The insertion-ordered `Map` is modelled as an association list. -/
structure VarMapping where
  cnToAlias : List (String × String)
  counter : Nat
deriving DecidableEq

/-- Decimal digit character for `d < 10`, used to model JavaScript's
number-to-string conversion in the template literal. -/
def decChar (d : Nat) : Char := Char.ofNat (48 + d)

/-- Decimal digit string of a natural number, modelling the JavaScript
template-literal conversion in `` `_v${mapping.counter++}` ``.  Structural
recursion on a fuel bound; any fuel at least `n` gives the same result. -/
def natDigitsF : Nat → Nat → List Char
  | 0, n => [decChar n]
  | fuel + 1, n =>
    if n < 10 then [decChar n]
    else natDigitsF fuel (n / 10) ++ [decChar (n % 10)]

/-- The decimal digit string with fuel `n`. -/
def natDigits (n : Nat) : List Char := natDigitsF n n

/-- Helper: the fuel argument of `natDigitsF` is irrelevant as long as it
bounds the number. -/
theorem natDigitsF_irrel :
    ∀ (f1 f2 n : Nat), n ≤ f1 → n ≤ f2 → natDigitsF f1 n = natDigitsF f2 n := by
  intro f1
  induction f1 with
  | zero =>
    intro f2 n h1 h2
    have : n = 0 := Nat.le_zero.1 h1
    subst this
    cases f2 with
    | zero => rfl
    | succ f2 => simp [natDigitsF]
  | succ f1 ih =>
    intro f2 n h1 h2
    by_cases hn : n < 10
    · cases f2 with
      | zero =>
        have : n = 0 := Nat.le_zero.1 h2
        subst this
        simp [natDigitsF]
      | succ f2 => simp [natDigitsF, hn]
    · cases f2 with
      | zero => omega
      | succ f2 =>
        simp only [natDigitsF, if_neg hn]
        have hd : n / 10 < n := Nat.div_lt_self (by omega) (by omega)
        rw [ih f2 (n / 10) (by omega) (by omega)]

/-- Unfolding equation of `natDigits`. -/
theorem natDigits_eq (n : Nat) :
    natDigits n = if n < 10 then [decChar n]
      else natDigits (n / 10) ++ [decChar (n % 10)] := by
  by_cases hn : n < 10
  · cases n with
    | zero => simp [natDigits, natDigitsF, hn]
    | succ m => simp [natDigits, natDigitsF, hn]
  · have hpos : 0 < n := by omega
    obtain ⟨m, rfl⟩ : ∃ m, n = m + 1 := ⟨n - 1, by omega⟩
    have hd : (m + 1) / 10 < m + 1 := Nat.div_lt_self (by omega) (by omega)
    simp only [natDigits, natDigitsF, if_neg hn]
    rw [natDigitsF_irrel m ((m + 1) / 10) ((m + 1) / 10) (by omega) (Nat.le_refl _)]

/-- String form of `natDigits`. -/
def natStr (n : Nat) : String := ⟨natDigits n⟩

/-- Lookup in the alias table (`mapping.cnToAlias.get(cnName)`). -/
def lookupAlias (m : VarMapping) (name : String) : Option String :=
  (m.cnToAlias.find? (fun p => p.1 == name)).map Prod.snd

/-- Mirrors `getAlias`: return the stable synthetic name for `cnName`,
allocating `_v{counter}` (and bumping the counter) on first request. -/
def getAlias (m : VarMapping) (cnName : String) : String × VarMapping :=
  match lookupAlias m cnName with
  | some a => (a, m)
  | none =>
    let a := "_v" ++ natStr m.counter
    (a, ⟨m.cnToAlias ++ [(cnName, a)], m.counter + 1⟩)

/-- Mirrors `hasUnicodeLetter` on a character list: the regex
`/[^\x00-\x7F]/` tests for any character outside 7-bit ASCII. -/
def hasUnicodeChar (l : List Char) : Bool := l.any (fun c => 127 < c.toNat)

/-- Mirrors `hasUnicodeLetter(s)`: `/[^\x00-\x7F]/.test(s)`. -/
def hasUnicodeLetter (s : String) : Bool := hasUnicodeChar s.data

/-- Models the Unicode letter class `\p{L}` of the identifier regex.  Exact on
ASCII; every character above 7-bit ASCII is treated as a letter (an
over-approximation of `\p{L}`: the claims under verification do not depend on
which non-ASCII characters count as letters). -/
def isLetterLike (c : Char) : Bool := c.isAlpha || 127 < c.toNat

/-- First character of an identifier token: `[\p{L}_]`. -/
def isIdentStart (c : Char) : Bool := isLetterLike c || c == '_'

/-- Continuation character of an identifier token: `[\p{L}\p{N}_]` (with the
numeric class modelled by ASCII digits). -/
def isIdentCont (c : Char) : Bool := isLetterLike c || c.isDigit || c == '_'

/-- Scanner for `replaceChineseVars`: the global replace of
`/[\p{L}_][\p{L}\p{N}_]*/gu`, aliasing every matched token that contains a
non-ASCII character and copying everything else.  Structural recursion on a
fuel bound (any fuel at least the input length gives the same result). -/
def replaceVarsAuxF : Nat → List Char → VarMapping → List Char × VarMapping
  | _, [], m => ([], m)
  | 0, l, m => (l, m)
  | fuel + 1, c :: cs, m =>
    if isIdentStart c then
      let tok : List Char := c :: cs.takeWhile isIdentCont
      let rest := cs.dropWhile isIdentCont
      if hasUnicodeChar tok then
        let am := getAlias m ⟨tok⟩
        let om := replaceVarsAuxF fuel rest am.2
        (am.1.data ++ om.1, om.2)
      else
        let om := replaceVarsAuxF fuel rest m
        (tok ++ om.1, om.2)
    else
      let om := replaceVarsAuxF fuel cs m
      (c :: om.1, om.2)

/-- The alias-substitution scanner with fuel equal to the input length. -/
def replaceVarsAux (l : List Char) (m : VarMapping) : List Char × VarMapping :=
  replaceVarsAuxF l.length l m

/-- Helper: the fuel argument of `replaceVarsAuxF` is irrelevant as long as it
bounds the input length. -/
theorem replaceVarsAuxF_irrel :
    ∀ (f1 f2 : Nat) (l : List Char) (m : VarMapping), l.length ≤ f1 →
      l.length ≤ f2 → replaceVarsAuxF f1 l m = replaceVarsAuxF f2 l m := by
  intro f1
  induction f1 with
  | zero =>
    intro f2 l m h1 h2
    have : l = [] := List.length_eq_zero.1 (Nat.le_zero.1 h1)
    subst this
    cases f2 <;> rfl
  | succ f1 ih =>
    intro f2 l m h1 h2
    cases l with
    | nil => cases f2 <;> rfl
    | cons c cs =>
      cases f2 with
      | zero => simp at h2
      | succ f2 =>
        have hrest := length_dropWhile_le isIdentCont cs
        simp only [List.length_cons] at h1 h2
        simp only [replaceVarsAuxF]
        rw [ih f2 (cs.dropWhile isIdentCont) (getAlias m ⟨c :: cs.takeWhile isIdentCont⟩).2
              (by omega) (by omega),
            ih f2 (cs.dropWhile isIdentCont) m (by omega) (by omega),
            ih f2 cs m (by omega) (by omega)]

/-- Mirrors `replaceChineseVars`, also returning the updated mapping (the
TypeScript version mutates `mapping` in place). -/
def replaceChineseVars (line : String) (m : VarMapping) : String × VarMapping :=
  let om := replaceVarsAux line.data m
  (⟨om.1⟩, om.2)

/-- Mirrors JavaScript `String.prototype.trim` (with Lean's ASCII whitespace
predicate standing in for the JavaScript whitespace set): drop whitespace from
both ends. -/
def jsTrim (s : String) : String :=
  ⟨((s.data.dropWhile Char.isWhitespace).reverse.dropWhile Char.isWhitespace).reverse⟩

/-- Mirrors `const BINARY_OPERATORS = ['+', '-', '*', '/']` (single-character
strings in TypeScript, characters here). -/
def BINARY_OPERATORS : List Char := ['+', '-', '*', '/']

/-- Character set of the separator-line regex `/^[-=_.*·~]+$/`. -/
def separatorChars : List Char := ['-', '=', '_', '.', '*', '·', '~']

/-- Mirrors the separator-line test `/^[-=_.*·~]+$/.test(line)`: one or more
characters, all drawn from the separator set. -/
def isSeparatorLine (line : String) : Bool :=
  !line.data.isEmpty && line.data.all (fun c => separatorChars.contains c)

/-- JavaScript word character for `\b` boundaries: `[A-Za-z0-9_]`. -/
def isWordCharJs (c : Char) : Bool := c.isAlphanum || c == '_'

/-- The alternatives of the known-identifier regex
`/\b(pi|e|ans|true|false|Infinity)\b/i`. -/
def knownTokens : List (List Char) :=
  [['p', 'i'], ['e'], ['a', 'n', 's'], ['t', 'r', 'u', 'e'],
   ['f', 'a', 'l', 's', 'e'], ['I', 'n', 'f', 'i', 'n', 'i', 't', 'y']]

/-- Case-insensitive prefix test (the regex has the `i` flag): returns the
rest of `l` after the prefix `t`, if `t` matches. -/
def ciPrefixRest : List Char → List Char → Option (List Char)
  | [], l => some l
  | _ :: _, [] => none
  | t :: ts, c :: cs => if t.toLower == c.toLower then ciPrefixRest ts cs else none

/-- Does one of the token alternatives match at the start of `l`, with a word
boundary after it (next character absent or not a word character)? -/
def tokenAt (l : List Char) : Bool :=
  knownTokens.any (fun t =>
    match ciPrefixRest t l with
    | some rest =>
      match rest with
      | [] => true
      | c :: _ => !isWordCharJs c
    | none => false)

/-- Scanner for `/\b(pi|e|ans|true|false|Infinity)\b/i.test(line)`: a match
exists at some position whose preceding character is not a word character
(the leading `\b`), with the trailing `\b` checked by `tokenAt`. -/
def hasKnownTokenAux : Bool → List Char → Bool
  | _, [] => false
  | prevWord, c :: cs =>
    (!prevWord && tokenAt (c :: cs)) || hasKnownTokenAux (isWordCharJs c) cs

/-- The known-identifier test on a whole line (start of string is a word
boundary). -/
def hasKnownToken (l : List Char) : Bool := hasKnownTokenAux false l

/-- Scope membership, mirroring
`Object.prototype.hasOwnProperty.call(scope, line)` on the association-list
model of the scope object. -/
def scopeHas {V : Type} (s : List (String × V)) (k : String) : Bool :=
  s.any (fun p => p.1 == k)

/-- Scope update, mirroring `scope['ans'] = previousAnswer` (overwrite the
existing binding or append a new one). -/
def scopeSet {V : Type} : List (String × V) → String → V → List (String × V)
  | [], k, v => [(k, v)]
  | p :: ps, k, v => if p.1 == k then (k, v) :: ps else p :: scopeSet ps k v

/-- Per-pass mutable state of `calculate`: the Chinese-variable mapping, the
variable scope handed to the engine, and the running previous answer
(`null` at the start of the pass). -/
structure PassState (V : Type) where
  mapping : VarMapping
  scope : List (String × V)
  previousAnswer : Option V
deriving DecidableEq

/-- Mirrors the prose-line test of the classifier (step 4): the line is not a
known variable, contains no digit and none of `= ( ) ^`, contains no binary
operator, and does not contain a known identifier as a whole word. -/
def isProseLine {V : Type} (st : PassState V) (line : String) : Bool :=
  let isKnownVariable :=
    scopeHas st.scope line || st.mapping.cnToAlias.any (fun p => p.1 == line)
  !isKnownVariable
    && !(line.data.any (fun c => c.isDigit || c == '=' || c == '(' || c == ')' || c == '^'))
    && !(BINARY_OPERATORS.any (fun op => line.data.contains op))
    && !hasKnownToken line.data

/-- The `Blank` line result `{ display: null, numeric: 0, error: false }`. -/
def blankResult : LineResult := ⟨none, 0, false⟩

/-- The `Error` line result `{ display: null, numeric: 0, error: true }`. -/
def errorResult : LineResult := ⟨none, 0, true⟩

/-- Mirrors `resultToDisplay`: `null`/`undefined` and every value whose type is
neither `BigNumber` nor `number` display as nothing; numeric values are
formatted with the engine's auto-notation formatter. -/
def resultToDisplay {V : Type} (E : Engine V) (val : V) : Option String :=
  if E.isNullish val then none
  else if E.typeOf val == "BigNumber" || E.typeOf val == "number" then
    some (E.format val)
  else none

/-- Mirrors `resultToNumber`: best-effort numeric approximation, defaulting to
0 when the conversion fails. -/
def resultToNumber {V : Type} (E : Engine V) (val : V) : Int :=
  (E.toNumber val).getD 0

/-- Is the first character of the line a binary operator
(`BINARY_OPERATORS.includes(line[0])`)? -/
def headIsOp (line : String) : Bool :=
  match line.data with
  | [] => false
  | c :: _ => BINARY_OPERATORS.contains c

/-- The chaining step: with a previous answer present and the line starting
with a binary operator, the previous answer's raw formatted string is
prepended (`line = math.format(previousAnswer, AUTO_FMT) + line`). -/
def chainedLine {V : Type} (E : Engine V) (st : PassState V) (line : String) : String :=
  match st.previousAnswer with
  | some v => if headIsOp line then E.format v ++ line else line
  | none => line

/-- The scope passed to the engine: with a previous answer present, `ans` is
bound to it first (`scope['ans'] = previousAnswer`). -/
def engineScope {V : Type} (st : PassState V) : List (String × V) :=
  match st.previousAnswer with
  | some v => scopeSet st.scope "ans" v
  | none => st.scope

/-- Percent expansion followed by alias substitution, the two rewrites applied
to the (already chained) line before evaluation; also returns the updated
alias mapping. -/
def preprocessed (st : VarMapping) (line : String) : String × VarMapping :=
  replaceChineseVars (preprocessPercent line) st

/-- The full string handed to `math.evaluate` for a line that reaches
evaluation: chaining, then percent expansion, then alias substitution. -/
def engineInput {V : Type} (E : Engine V) (st : PassState V) (raw : String) : String :=
  (preprocessed st.mapping (chainedLine E st (jsTrim raw))).1

/-- Evaluation of an already-chained line: preprocess, delegate to the engine
with `ans` bound, and build the `LineResult` exactly as the `try`/`catch`
block of `calculate` does. -/
def evalCore {V : Type} (E : Engine V) (st : PassState V) (line : String) :
    LineResult × PassState V :=
  match E.evaluate (preprocessed st.mapping line).1 (engineScope st) with
  | .err s2 => (errorResult, ⟨(preprocessed st.mapping line).2, s2, st.previousAnswer⟩)
  | .ok v s2 =>
    match resultToDisplay E v with
    | some d =>
      (⟨some d, resultToNumber E v, false⟩, ⟨(preprocessed st.mapping line).2, s2, some v⟩)
    | none => (blankResult, ⟨(preprocessed st.mapping line).2, s2, st.previousAnswer⟩)

/-- Evaluation of an eligible trimmed line: apply the chaining step, then
`evalCore`. -/
def evalLine {V : Type} (E : Engine V) (st : PassState V) (line : String) :
    LineResult × PassState V :=
  evalCore E st (chainedLine E st line)

/-- The classifier's skip decision as one boolean: blank, comment, separator
or prose (in the short-circuit order of the code). -/
def classifySkips {V : Type} (st : PassState V) (raw : String) : Bool :=
  let line := jsTrim raw
  line.data.isEmpty || line.data.head? == some '#'
    || isSeparatorLine line || isProseLine st line

/-- One iteration of the `for` loop of `calculate`: trim, classify, and either
skip with a blank result or evaluate. -/
def calcLine {V : Type} (E : Engine V) (st : PassState V) (raw : String) :
    LineResult × PassState V :=
  let line := jsTrim raw
  if line.data.isEmpty then (blankResult, st)
  else if line.data.head? == some '#' then (blankResult, st)
  else if isSeparatorLine line then (blankResult, st)
  else if isProseLine st line then (blankResult, st)
  else evalLine E st line

/-- The fresh mapping `{ cnToAlias: new Map(), counter: 0 }`. -/
def initMapping : VarMapping := ⟨[], 0⟩

/-- The fresh per-pass state of `calculate`. -/
def initState (V : Type) : PassState V := ⟨initMapping, [], none⟩

/-- The loop of `calculate` over the document's lines, threading the state. -/
def calcLines {V : Type} (E : Engine V) : List String → PassState V → List LineResult
  | [], _ => []
  | l :: ls, st =>
    let r := calcLine E st l
    r.1 :: calcLines E ls r.2

/-- Mirrors `calculate`: split the document on newlines and process every line
in order from a fresh state. -/
def calculate {V : Type} (E : Engine V) (text : String) : CalcResult :=
  ⟨calcLines E (text.splitOn "\n") (initState V)⟩

/-- Mirrors the trailing-zero strip `mantissa.replace(/\.?0+$/, '')`, guarded
by `mantissa.includes('.')`.  The single (non-global) replace removes the
leftmost match anchored at the end: the maximal run of trailing zeros, with a
decimal point immediately before the run also removed. -/
def stripZeros (m : List Char) : List Char :=
  if m.contains '.' then
    let r := m.reverse
    let z := r.takeWhile (fun c => c == '0')
    let rest := r.dropWhile (fun c => c == '0')
    if z.isEmpty then m
    else
      match rest with
      | '.' :: rest2 => rest2.reverse
      | _ => rest.reverse
  else m

/-- Scanner for the grouping regex `/\B(?=(\d{3})+(?!\d))/g` at positions
after the first character: a comma is inserted before a character when the
previous character is a word character (the `\B`, as the lookahead forces a
digit at the position) and the maximal digit run starting there has length a
positive multiple of three (the `(\d{3})+(?!\d)` lookahead). -/
def groupAux : Char → List Char → List Char
  | _, [] => []
  | prev, c :: cs =>
    if isWordCharJs prev && c.isDigit
        && ((c :: cs).takeWhile Char.isDigit).length % 3 == 0 then
      ',' :: c :: groupAux c cs
    else c :: groupAux c cs

/-- The grouping replace on `parts[0]` (no insertion before the first
character: position zero is the `^`-side word boundary). -/
def groupInt : List Char → List Char
  | [] => []
  | c :: cs => c :: groupAux c cs

/-- Mirrors `formatDisplay`: split at the first `e` into mantissa and
exponent suffix, strip trailing zeros from the mantissa, and, for fixed-point
strings only, insert thousands separators into the part of the mantissa left
of the first decimal point (`split('.')`, replace on `parts[0]`,
`join('.')`). -/
def formatDisplayL (cs : List Char) : List Char :=
  let mantissa := cs.takeWhile (fun c => c != 'e')
  let exponent := cs.dropWhile (fun c => c != 'e')
  let m2 := stripZeros mantissa
  let m3 :=
    if exponent.isEmpty then
      groupInt (m2.takeWhile (fun c => c != '.')) ++ m2.dropWhile (fun c => c != '.')
    else m2
  m3 ++ exponent

/-- `formatDisplay` on strings. -/
def formatDisplay (s : String) : String := ⟨formatDisplayL s.data⟩

/-- Mirrors the exported `formatNumber`, which just calls `formatDisplay`. -/
def formatNumber (s : String) : String := formatDisplay s

/-- Concrete engine over `Unit` whose evaluation always fails, for
instantiating theorems at concrete inputs. -/
def failEngine : Engine Unit :=
  ⟨fun _ s => .err s, fun _ => "Unit", fun _ => "3", fun _ => some 0, fun _ => false⟩

/-- Concrete engine over `Unit` that always returns a value of type
`string` (neither `BigNumber` nor `number`). -/
def strEngine : Engine Unit :=
  ⟨fun _ s => .ok () s, fun _ => "string", fun _ => "3", fun _ => none, fun _ => false⟩

/-- Concrete engine over `Unit` formatting every value as `100`, for
exercising the chaining step. -/
def chainEngine : Engine Unit :=
  ⟨fun _ s => .err s, fun _ => "Unit", fun _ => "100", fun _ => some 0, fun _ => false⟩

/-- Helper for C1: the loop produces exactly one result per processed line,
whatever the state. -/
theorem calcLines_length {V : Type} (E : Engine V) (ls : List String)
    (st : PassState V) : (calcLines E ls st).length = ls.length := by
  induction ls generalizing st with
  | nil => rfl
  | cons l ls ih => simp [calcLines, ih]

/-- C1: for every input document, `calculate` produces exactly one
`LineResult` per input line (splitting on the newline character), so the
results list has the same length as the list of input lines. -/
theorem C1_one_result_per_line {V : Type} (E : Engine V) (text : String) :
    (calculate E text).lines.length = (text.splitOn "\n").length := by
  simp [calculate, calcLines_length]

/-- C5: every line classified as blank, comment, separator or prose yields the
`Blank` result, and processing it returns the pass state (previous answer,
scope and alias table) exactly unchanged. -/
theorem C5_skipped_line_blank_and_state_unchanged {V : Type} (E : Engine V)
    (st : PassState V) (raw : String) (h : classifySkips st raw = true) :
    calcLine E st raw = (blankResult, st) := by
  unfold classifySkips at h
  simp only [Bool.or_eq_true] at h
  by_cases e1 : (jsTrim raw).data.isEmpty = true
  · simp [calcLine, e1]
  · by_cases e2 : ((jsTrim raw).data.head? == some '#') = true
    · simp [calcLine, e1, e2]
    · by_cases e3 : isSeparatorLine (jsTrim raw) = true
      · simp [calcLine, e1, e2, e3]
      · by_cases e4 : isProseLine st (jsTrim raw) = true
        · simp [calcLine, e1, e2, e3, e4]
        · exact absurd h (by simp [e1, e2, e3, e4])

/-- C5 witness: a comment line on the fresh state. -/
theorem C5_skipped_line_blank_and_state_unchanged_witness :
    classifySkips (initState Unit) " # rent notes" = true ∧
    calcLine failEngine (initState Unit) " # rent notes" = (blankResult, initState Unit) :=
  ⟨by decide,
   C5_skipped_line_blank_and_state_unchanged failEngine (initState Unit)
     " # rent notes" (by decide)⟩

/-- Helper: an eligible line (one the classifier does not skip) is processed
by the chaining step followed by `evalCore`. -/
theorem calcLine_eligible {V : Type} (E : Engine V) (st : PassState V)
    (raw : String) (h : classifySkips st raw = false) :
    calcLine E st raw = evalCore E st (chainedLine E st (jsTrim raw)) := by
  unfold classifySkips at h
  simp only [Bool.or_eq_false_iff] at h
  obtain ⟨⟨⟨h1, h2⟩, h3⟩, h4⟩ := h
  unfold calcLine evalLine
  simp [h1, h2, h3, h4]

/-- C2: when the engine throws on a line that reaches evaluation, the stored
result is the `Error` variant and the previous answer is left unchanged (so a
later `ans` still resolves to the most recent successful result). -/
theorem C2_throw_error_keeps_previous_answer {V : Type} (E : Engine V)
    (st : PassState V) (raw : String) (s2 : List (String × V))
    (hskip : classifySkips st raw = false)
    (hthrow : E.evaluate (engineInput E st raw) (engineScope st) = .err s2) :
    (calcLine E st raw).1 = errorResult ∧
    (calcLine E st raw).2.previousAnswer = st.previousAnswer := by
  rw [calcLine_eligible E st raw hskip]
  unfold evalCore
  unfold engineInput at hthrow
  rw [hthrow]
  exact ⟨rfl, rfl⟩

/-- C2 witness: an always-throwing engine on the line `1+1`. -/
theorem C2_throw_error_keeps_previous_answer_witness :
    classifySkips (initState Unit) "1+1" = false ∧
    (calcLine failEngine (initState Unit) "1+1").1 = errorResult ∧
    (calcLine failEngine (initState Unit) "1+1").2.previousAnswer =
      (initState Unit).previousAnswer :=
  ⟨by decide,
   C2_throw_error_keeps_previous_answer failEngine (initState Unit) "1+1" []
     (by decide) (by decide)⟩

/-- C9: when the engine returns a value whose type is neither `BigNumber` nor
`number` on a line that reaches evaluation, the stored result is `Blank` (not
`Error`) and the previous answer is not updated. -/
theorem C9_nonnumeric_result_blank {V : Type} (E : Engine V)
    (st : PassState V) (raw : String) (v : V) (s2 : List (String × V))
    (hskip : classifySkips st raw = false)
    (hok : E.evaluate (engineInput E st raw) (engineScope st) = .ok v s2)
    (ht1 : E.typeOf v ≠ "BigNumber") (ht2 : E.typeOf v ≠ "number") :
    (calcLine E st raw).1 = blankResult ∧
    (calcLine E st raw).2.previousAnswer = st.previousAnswer := by
  rw [calcLine_eligible E st raw hskip]
  unfold evalCore
  unfold engineInput at hok
  rw [hok]
  unfold resultToDisplay
  have hb1 : (E.typeOf v == "BigNumber") = false := by
    simpa using ht1
  have hb2 : (E.typeOf v == "number") = false := by
    simpa using ht2
  simp [hb1, hb2]

/-- C9 witness: an engine returning a `string`-typed value on the line
`1+1`. -/
theorem C9_nonnumeric_result_blank_witness :
    classifySkips (initState Unit) "1+1" = false ∧
    (calcLine strEngine (initState Unit) "1+1").1 = blankResult ∧
    (calcLine strEngine (initState Unit) "1+1").2.previousAnswer =
      (initState Unit).previousAnswer :=
  ⟨by decide,
   C9_nonnumeric_result_blank strEngine (initState Unit) "1+1" () []
     (by decide) (by decide) (by decide) (by decide)⟩

/-- C4: with a previous answer present and an eligible trimmed line starting
with one of `+ - * /`, the line is processed exactly as the line obtained by
prepending the previous answer's raw formatted string. -/
theorem C4_chaining_prepends_formatted_answer {V : Type} (E : Engine V)
    (st : PassState V) (raw : String) (v : V)
    (hskip : classifySkips st raw = false)
    (hprev : st.previousAnswer = some v)
    (hop : headIsOp (jsTrim raw) = true) :
    calcLine E st raw = evalCore E st (E.format v ++ jsTrim raw) := by
  rw [calcLine_eligible E st raw hskip]
  unfold chainedLine
  rw [hprev, hop]
  simp

/-- C4 witness: the line `* 80%` after a previous answer formatted `100`. -/
theorem C4_chaining_prepends_formatted_answer_witness :
    classifySkips (⟨initMapping, [], some ()⟩ : PassState Unit) "* 80%" = false ∧
    (⟨initMapping, [], some ()⟩ : PassState Unit).previousAnswer = some () ∧
    headIsOp (jsTrim "* 80%") = true ∧
    calcLine chainEngine ⟨initMapping, [], some ()⟩ "* 80%" =
      evalCore chainEngine ⟨initMapping, [], some ()⟩ (chainEngine.format () ++ jsTrim "* 80%") :=
  ⟨by decide, by decide, by decide,
   C4_chaining_prepends_formatted_answer chainEngine ⟨initMapping, [], some ()⟩
     "* 80%" () (by decide) (by decide) (by decide)⟩

/-- C8: the presentation formatter maps the raw string `1234567.00` to
`1,234,567` — trailing zeros and the then-bare decimal point are stripped and
the integer digits are grouped in threes. -/
theorem C8_trailing_zeros_and_grouping_example :
    formatNumber "1234567.00" = "1,234,567" := by decide

/-- Scanner for the property of C10: does the list contain an ASCII decimal
digit immediately followed by `%`? -/
def digitThenPercent : List Char → Bool
  | c1 :: c2 :: rest => (c1.isDigit && c2 == '%') || digitThenPercent (c2 :: rest)
  | _ => false

/-- Helper: a successful `matchPercent` starts at a digit. -/
theorem matchPercent_head_digit {l lit rest : List Char}
    (h : matchPercent l = some (lit, rest)) :
    ∃ c cs, l = c :: cs ∧ c.isDigit = true := by
  cases l with
  | nil => simp [matchPercent] at h
  | cons c cs =>
    refine ⟨c, cs, rfl, ?_⟩
    cases hcd : c.isDigit with
    | true => rfl
    | false => simp [matchPercent, List.takeWhile_cons, hcd] at h

/-- Helper: the captured literal of `matchPercent` consists of digits and at
most one decimal point. -/
theorem matchPercent_lit_chars {l lit rest : List Char}
    (h : matchPercent l = some (lit, rest)) :
    ∀ x ∈ lit, x.isDigit = true ∨ x = '.' := by
  unfold matchPercent at h
  simp only at h
  split at h
  · exact absurd h (by simp)
  · split at h
    · simp only [Option.some.injEq, Prod.mk.injEq] at h
      obtain ⟨h1, -⟩ := h
      subst h1
      intro x hx
      left
      exact List.mem_takeWhile_imp hx
    · split at h
      · exact absurd h (by simp)
      · split at h
        · simp only [Option.some.injEq, Prod.mk.injEq] at h
          obtain ⟨h1, -⟩ := h
          subst h1
          intro x hx
          rcases List.mem_append.1 hx with hx | hx
          · left; exact List.mem_takeWhile_imp hx
          · rcases List.mem_cons.1 hx with hx | hx
            · right; exact hx
            · left; exact List.mem_takeWhile_imp hx
        · exact absurd h (by simp)
    · exact absurd h (by simp)

/-- Helper: when the head is a digit and no match starts there, the next
character cannot be `%` (else taking the one-digit run and the `%` would have
matched). -/
theorem matchPercent_none_next_not_percent {c : Char} {cs : List Char}
    (hc : c.isDigit = true) (h : matchPercent (c :: cs) = none) :
    cs.head? ≠ some '%' := by
  intro hcs
  cases cs with
  | nil => simp at hcs
  | cons c2 cs' =>
    simp only [List.head?_cons, Option.some.injEq] at hcs
    subst hcs
    simp [matchPercent, List.takeWhile_cons, List.dropWhile_cons, hc] at h

/-- Helper: the head of the percent-expansion output is the head of the input
or an opening parenthesis (from a replacement). -/
theorem percentAux_head (l : List Char) :
    (percentAux l).head? = l.head? ∨ (percentAux l).head? = some '(' := by
  cases l with
  | nil => left; rw [percentAux_nil]
  | cons c cs =>
    cases h : matchPercent (c :: cs) with
    | some p =>
      right
      obtain ⟨lit, rest⟩ := p
      rw [percentAux_cons_some h]
      rfl
    | none =>
      left
      rw [percentAux_cons_none h]
      rfl

/-- Helper: no digit-`%` adjacency in a list without `%`. -/
theorem digitThenPercent_of_no_percent {l : List Char}
    (h : ∀ x ∈ l, x ≠ '%') : digitThenPercent l = false := by
  induction l with
  | nil => rfl
  | cons c cs ih =>
    cases cs with
    | nil => rfl
    | cons c2 cs' =>
      have h2 : c2 ≠ '%' := h c2 (by simp)
      have : (c2 == '%') = false := by simpa using h2
      simp only [digitThenPercent, this, Bool.and_false, Bool.false_or]
      exact ih (fun x hx => h x (List.mem_cons_of_mem c hx))

/-- Helper: no digit-`%` adjacency in an append when both parts are clean and
the boundary pair is clean. -/
theorem digitThenPercent_append {a b : List Char}
    (ha : digitThenPercent a = false) (hb : digitThenPercent b = false)
    (hab : ∀ x y, a.getLast? = some x → b.head? = some y →
      (x.isDigit && y == '%') = false) :
    digitThenPercent (a ++ b) = false := by
  induction a with
  | nil => simpa using hb
  | cons c a' ih =>
    cases a' with
    | nil =>
      cases b with
      | nil => rfl
      | cons y b' =>
        have hxy := hab c y rfl rfl
        simp only [List.cons_append, List.nil_append, digitThenPercent, hxy,
          Bool.false_or]
        exact hb
    | cons c2 a'' =>
      simp only [digitThenPercent, Bool.or_eq_false_iff] at ha
      obtain ⟨ha1, ha2⟩ := ha
      have hlast : ∀ x y, (c2 :: a'').getLast? = some x → b.head? = some y →
          (x.isDigit && y == '%') = false := by
        intro x y hx hy
        exact hab x y (by rw [List.getLast?_cons_cons]; exact hx) hy
      have ih' := ih ha2 hlast
      simp only [List.cons_append] at ih' ⊢
      simp only [digitThenPercent]
      rw [ih', ha1]
      rfl

/-- Helper: the percent-expansion output never contains a digit immediately
followed by `%` (bounded-length induction following the scanner). -/
theorem digitThenPercent_percentAux :
    ∀ (n : Nat) (l : List Char), l.length ≤ n →
      digitThenPercent (percentAux l) = false := by
  intro n
  induction n with
  | zero =>
    intro l hl
    have : l = [] := List.length_eq_zero.1 (Nat.le_zero.1 hl)
    subst this
    rw [percentAux_nil]
    rfl
  | succ n ih =>
    intro l hl
    cases l with
    | nil =>
      rw [percentAux_nil]
      rfl
    | cons c cs =>
      cases h : matchPercent (c :: cs) with
      | some p =>
        obtain ⟨lit, rest⟩ := p
        rw [percentAux_cons_some h]
        have hrest : rest.length ≤ n := by
          have := matchPercent_rest_lt h
          simp only [List.length_cons] at this hl
          omega
        have hT := ih rest hrest
        have hshape : '(' :: (lit ++ '/' :: '1' :: '0' :: '0' :: ')' :: percentAux rest)
            = (('(' :: lit ++ ['/', '1', '0', '0']) ++ [')']) ++ percentAux rest := by
          simp
        rw [hshape]
        apply digitThenPercent_append
        · apply digitThenPercent_of_no_percent
          intro x hx
          rcases List.mem_append.1 hx with hx | hx
          · rcases List.mem_append.1 hx with hx | hx
            · rcases List.mem_cons.1 hx with hx | hx
              · subst hx; decide
              · rcases matchPercent_lit_chars h x hx with hd | hd
                · intro he; subst he; simp at hd
                · subst hd; decide
            · fin_cases hx <;> decide
          · fin_cases hx <;> decide
        · exact hT
        · intro x y hx hy
          rw [List.getLast?_concat] at hx
          simp only [Option.some.injEq] at hx
          subst hx
          have hpr : (')'.isDigit) = false := by decide
          rw [hpr]
          rfl
      | none =>
        rw [percentAux_cons_none h]
        have hT := ih cs (by simp only [List.length_cons] at hl; omega)
        cases hcs : percentAux cs with
        | nil =>
          cases cs with
          | nil => rfl
          | cons c2 cs' => simp [digitThenPercent]
        | cons t1 t' =>
          simp only [digitThenPercent]
          rw [hcs] at hT
          rw [hT]
          cases hcd : c.isDigit with
          | false => simp
          | true =>
            have ht1 : t1 ≠ '%' := by
              rcases percentAux_head cs with hh | hh <;> rw [hcs] at hh
              · have := matchPercent_none_next_not_percent hcd h
                intro he
                subst he
                exact this (by rw [← hh]; rfl)
              · simp only [List.head?_cons, Option.some.injEq] at hh
                subst hh
                decide
            have : (t1 == '%') = false := by simpa using ht1
            simp [this]

/-- C10: percent expansion leaves no ASCII digit immediately followed by `%`
in its output, so a `%` whose left operand is a numeric literal is always
rewritten as division by 100 before the engine sees the line; in particular
`10%3` is handed on as `(10/100)3`. -/
theorem C10_no_digit_percent_survives :
    (∀ line : String, digitThenPercent (preprocessPercent line).data = false) ∧
    preprocessPercent "10%3" = "(10/100)3" := by
  constructor
  · intro line
    exact digitThenPercent_percentAux line.data.length line.data (Nat.le_refl _)
  · decide

/-- Helper: `takeWhile`/`dropWhile` over an append whose second part starts
with a failing element stay inside the first part. -/
theorem takeWhile_dropWhile_append_stop {α : Type _} (q : α → Bool) (a b : List α)
    (hb : ∀ c, b.head? = some c → q c = false) :
    (a ++ b).takeWhile q = a.takeWhile q ∧
    (a ++ b).dropWhile q = a.dropWhile q ++ b := by
  induction a with
  | nil =>
    cases b with
    | nil => exact ⟨rfl, rfl⟩
    | cons c bs =>
      have hc := hb c rfl
      constructor
      · simp [List.takeWhile_cons, hc]
      · simp [List.dropWhile_cons, hc]
  | cons x a' ih =>
    cases hx : q x with
    | true =>
      constructor
      · simp [List.takeWhile_cons, hx, ih.1]
      · simp [List.dropWhile_cons, hx, ih.2]
    | false =>
      constructor
      · simp [List.takeWhile_cons, hx]
      · simp [List.dropWhile_cons, hx]

/-- Helper: no match of the percent regex can start inside a `%`-free prefix
when the suffix opens with a character that is not a digit, a dot or `%`. -/
theorem matchPercent_none_append {c : Char} {p' l : List Char}
    (hp : ∀ x ∈ c :: p', x ≠ '%')
    (hl : ∀ d, l.head? = some d → d.isDigit = false ∧ d ≠ '.' ∧ d ≠ '%') :
    matchPercent ((c :: p') ++ l) = none := by
  have hldig : ∀ d, l.head? = some d → Char.isDigit d = false := fun d hd => (hl d hd).1
  obtain ⟨htw, hdw⟩ := takeWhile_dropWhile_append_stop Char.isDigit (c :: p') l hldig
  unfold matchPercent
  simp only [htw, hdw]
  split
  · rfl
  · split
    · rename_i r hr
      exfalso
      cases hA : (c :: p').dropWhile Char.isDigit with
      | nil =>
        rw [hA] at hr
        simp only [List.nil_append] at hr
        have := (hl '%' (by rw [hr]; rfl)).2.2
        exact this rfl
      | cons x xs =>
        rw [hA] at hr
        simp only [List.cons_append, List.cons.injEq] at hr
        have hxmem : x ∈ c :: p' :=
          (List.dropWhile_sublist Char.isDigit).mem (by rw [hA]; exact List.mem_cons_self x xs)
        exact hp x hxmem hr.1
    · rename_i r2 hr2
      cases hA : (c :: p').dropWhile Char.isDigit with
      | nil =>
        exfalso
        rw [hA] at hr2
        simp only [List.nil_append] at hr2
        have := (hl '.' (by rw [hr2]; rfl)).2.1
        exact this rfl
      | cons x xs =>
        rw [hA] at hr2
        simp only [List.cons_append, List.cons.injEq] at hr2
        obtain ⟨hx, hxs⟩ := hr2
        subst hxs
        obtain ⟨htw2, hdw2⟩ := takeWhile_dropWhile_append_stop Char.isDigit xs l hldig
        simp only [htw2, hdw2]
        split
        · rfl
        · split
          · rename_i r hr
            exfalso
            cases hB : xs.dropWhile Char.isDigit with
            | nil =>
              rw [hB] at hr
              simp only [List.nil_append] at hr
              have := (hl '%' (by rw [hr]; rfl)).2.2
              exact this rfl
            | cons y ys =>
              rw [hB] at hr
              simp only [List.cons_append, List.cons.injEq] at hr
              have hymem : y ∈ c :: p' := by
                have h1 : y ∈ xs :=
                  (List.dropWhile_sublist Char.isDigit).mem
                    (by rw [hB]; exact List.mem_cons_self y ys)
                have h2 : y ∈ (c :: p').dropWhile Char.isDigit := by
                  rw [hA]; exact List.mem_cons_of_mem x h1
                exact (List.dropWhile_sublist Char.isDigit).mem h2
              exact hp y hymem hr.1
          · rfl
    · rfl

/-- Helper: percent expansion over an append leaves a `%`-free prefix intact
when the suffix opens with a character that is not a digit, a dot or `%`
(bounded-length induction over the prefix). -/
theorem percentAux_append_aux :
    ∀ (n : Nat) (p l : List Char), p.length ≤ n →
      (∀ x ∈ p, x ≠ '%') →
      (∀ d, l.head? = some d → d.isDigit = false ∧ d ≠ '.' ∧ d ≠ '%') →
      percentAux (p ++ l) = p ++ percentAux l := by
  intro n
  induction n with
  | zero =>
    intro p l hp _ _
    have : p = [] := List.length_eq_zero.1 (Nat.le_zero.1 hp)
    subst this
    rfl
  | succ n ih =>
    intro p l hlen hp hl
    cases p with
    | nil => rfl
    | cons c p' =>
      have hnone := matchPercent_none_append hp hl
      rw [List.cons_append] at hnone ⊢
      rw [percentAux_cons_none hnone]
      rw [ih p' l (by simp only [List.length_cons] at hlen; omega)
            (fun x hx => hp x (List.mem_cons_of_mem c hx)) hl]
      simp

/-- Helper: binary operator characters are not digits, dots or percents. -/
theorem op_char_facts {c : Char} (h : BINARY_OPERATORS.contains c = true) :
    c.isDigit = false ∧ c ≠ '.' ∧ c ≠ '%' := by
  have : c ∈ BINARY_OPERATORS := by
    simpa using h
  fin_cases this <;> exact ⟨by decide, by decide, by decide⟩

/-- Helper: digits are not binary operator characters. -/
theorem digit_not_op {c : Char} (h : c.isDigit = true) :
    BINARY_OPERATORS.contains c = false := by
  cases hc : BINARY_OPERATORS.contains c with
  | false => rfl
  | true =>
    exfalso
    have : c ∈ BINARY_OPERATORS := by simpa using hc
    fin_cases this <;> simp_all

/-- Helper: percent expansion preserves whether the line starts with a binary
operator (a replacement only starts at a digit, and emits `(`). -/
theorem headIsOp_preprocessPercent (s : String) :
    headIsOp (preprocessPercent s) = headIsOp s := by
  show headIsOp ⟨percentAux s.data⟩ = headIsOp s
  cases hd : s.data with
  | nil =>
    unfold headIsOp
    simp [percentAux_nil, hd]
  | cons c cs =>
    cases h : matchPercent (c :: cs) with
    | some p =>
      obtain ⟨lit, rest⟩ := p
      obtain ⟨c', cs', heq, hdig⟩ := matchPercent_head_digit h
      simp only [List.cons.injEq] at heq
      unfold headIsOp
      simp only [hd, percentAux_cons_some h]
      rw [← heq.1] at hdig
      rw [digit_not_op hdig]
      decide
    | none =>
      unfold headIsOp
      simp [hd, percentAux_cons_none h]

/-- The preprocessing pipeline in the order the specification gives it:
percent expansion first, then the chaining prefix (the expanded line's first
character decides, which agrees with the raw line's by
`headIsOp_preprocessPercent`), with alias substitution applied last over the
fully assembled line by `specEngineInput`. -/
def specAssembled {V : Type} (E : Engine V) (st : PassState V) (line : String) : String :=
  match st.previousAnswer with
  | some v =>
    if headIsOp (preprocessPercent line) then E.format v ++ preprocessPercent line
    else preprocessPercent line
  | none => preprocessPercent line

/-- The engine input prescribed by the specification's pipeline order. -/
def specEngineInput {V : Type} (E : Engine V) (st : PassState V) (raw : String) : String :=
  (replaceChineseVars (specAssembled E st (jsTrim raw)) st.mapping).1

/-- Helper: appending strings appends their character lists. -/
theorem string_data_append (s t : String) : (s ++ t).data = s.data ++ t.data := by
  cases s
  cases t
  rfl

/-- Helper: appending a string built from a character list. -/
theorem string_mk_append (s : String) (l : List Char) :
    s ++ (⟨l⟩ : String) = ⟨s.data ++ l⟩ := by
  cases s
  rfl

/-- C3: the string handed to the arithmetic engine equals the result of the
specification's order-sensitive pipeline — percent expansion first, then the
chaining prefix, then alias substitution over the fully assembled line —
whenever the formatted previous answer contains no `%` (engine-formatted
numerals never do). -/
theorem C3_pipeline_order_equivalent {V : Type} (E : Engine V) (st : PassState V)
    (raw : String)
    (hfmt : ∀ v, st.previousAnswer = some v → ∀ x ∈ (E.format v).data, x ≠ '%') :
    engineInput E st raw = specEngineInput E st raw := by
  have key : preprocessPercent (chainedLine E st (jsTrim raw))
      = specAssembled E st (jsTrim raw) := by
    unfold chainedLine specAssembled
    cases hprev : st.previousAnswer with
    | none => rfl
    | some v =>
      simp only
      rw [headIsOp_preprocessPercent]
      by_cases hop : headIsOp (jsTrim raw) = true
      case neg => rw [if_neg hop, if_neg hop]
      case pos =>
        rw [if_pos hop, if_pos hop]
        unfold headIsOp at hop
        unfold preprocessPercent
        have hdata : (E.format v ++ jsTrim raw).data
            = (E.format v).data ++ (jsTrim raw).data := string_data_append _ _
        rw [hdata]
        have hl : ∀ d, (jsTrim raw).data.head? = some d →
            d.isDigit = false ∧ d ≠ '.' ∧ d ≠ '%' := by
          intro d hdhead
          cases hjd : (jsTrim raw).data with
          | nil => rw [hjd] at hdhead; cases hdhead
          | cons c0 cs0 =>
            rw [hjd] at hdhead hop
            simp only [List.head?_cons, Option.some.injEq] at hdhead
            subst hdhead
            exact op_char_facts hop
        rw [percentAux_append_aux (E.format v).data.length (E.format v).data
              ((jsTrim raw)).data (Nat.le_refl _) (hfmt v hprev) hl]
        exact (string_mk_append (E.format v) (percentAux (jsTrim raw).data)).symm
  unfold engineInput specEngineInput preprocessed
  rw [key]

/-- C3 witness: the line `* 80%` with a previous answer formatted `100`. -/
theorem C3_pipeline_order_equivalent_witness :
    (∀ v : Unit, (⟨initMapping, [], some ()⟩ : PassState Unit).previousAnswer = some v →
      ∀ x ∈ (chainEngine.format v).data, x ≠ '%') ∧
    engineInput chainEngine ⟨initMapping, [], some ()⟩ "* 80%" =
      specEngineInput chainEngine ⟨initMapping, [], some ()⟩ "* 80%" :=
  ⟨by intro v hv; cases v; decide,
   C3_pipeline_order_equivalent chainEngine ⟨initMapping, [], some ()⟩ "* 80%"
     (by intro v hv; cases v; decide)⟩

/-- Helper for C6: order-preserving deduplication keeping first occurrences,
with an accumulator of names already seen. -/
def distinctsAux : List String → List String → List String
  | _, [] => []
  | seen, n :: ns =>
    if seen.contains n then distinctsAux seen ns
    else n :: distinctsAux (seen ++ [n]) ns

/-- The distinct names of a request list, in order of first occurrence. -/
def distincts (l : List String) : List String := distinctsAux [] l

/-- Index of the first occurrence of a name in a list (length if absent). -/
def firstIdx : List String → String → Nat
  | [], _ => 0
  | n :: ns, name => if n == name then 0 else firstIdx ns name + 1

/-- The aliases returned by a sequence of `getAlias` requests, threading the
mapping through the calls exactly as repeated calls inside one pass do. -/
def aliasTrace (m : VarMapping) : List String → List String
  | [] => []
  | n :: ns => (getAlias m n).1 :: aliasTrace (getAlias m n).2 ns

/-- The alias table holding the given names in order, numbered from `k`. -/
def tableFrom : List String → Nat → List (String × String)
  | [], _ => []
  | n :: ns, k => (n, "_v" ++ natStr k) :: tableFrom ns (k + 1)

/-- The mapping state after the names of `seen` have been requested (in that
order) starting from the fresh mapping. -/
def mappingOf (seen : List String) : VarMapping :=
  ⟨tableFrom (distincts seen) 0, (distincts seen).length⟩

/-- Decimal value of a digit string, inverse to `natDigits`. -/
def natVal (l : List Char) : Nat := l.foldl (fun a c => 10 * a + (c.toNat - 48)) 0

/-- Helper: the code of a decimal digit character. -/
theorem decChar_toNat {d : Nat} (h : d < 10) : (decChar d).toNat = 48 + d := by
  interval_cases d <;> decide

/-- Helper: `natVal` over a final digit. -/
theorem natVal_append_digit (a : List Char) (c : Char) :
    natVal (a ++ [c]) = 10 * natVal a + (c.toNat - 48) := by
  unfold natVal
  rw [List.foldl_append]
  rfl

/-- Helper: `natVal` recovers the number from its digit string. -/
theorem natVal_natDigits (n : Nat) : natVal (natDigits n) = n := by
  induction n using Nat.strong_induction_on with
  | _ n ih =>
    rw [natDigits_eq]
    by_cases h : n < 10
    · rw [if_pos h]
      show 10 * 0 + ((decChar n).toNat - 48) = n
      rw [decChar_toNat h]
      omega
    · rw [if_neg h]
      rw [natVal_append_digit]
      rw [ih (n / 10) (Nat.div_lt_self (by omega) (by omega))]
      rw [decChar_toNat (Nat.mod_lt n (by omega))]
      omega

/-- Helper: strings with equal character lists are equal. -/
theorem string_data_inj {s t : String} (h : s.data = t.data) : s = t := by
  cases s
  cases t
  exact congrArg String.mk h

/-- Helper: `natStr` is injective. -/
theorem natStr_inj {a b : Nat} (h : natStr a = natStr b) : a = b := by
  have hd : natDigits a = natDigits b := congrArg String.data h
  have hv := congrArg natVal hd
  rwa [natVal_natDigits, natVal_natDigits] at hv

/-- Helper: the synthetic alias strings are injective in the counter. -/
theorem alias_string_inj {a b : Nat}
    (h : "_v" ++ natStr a = "_v" ++ natStr b) : a = b := by
  have hd := congrArg String.data h
  rw [string_data_append, string_data_append] at hd
  have hc : (natStr a).data = (natStr b).data := List.append_cancel_left hd
  exact natStr_inj (string_data_inj hc)

/-- Helper: membership in the deduplicated list. -/
theorem mem_distinctsAux :
    ∀ (l acc : List String) (x : String),
      x ∈ distinctsAux acc l ↔ x ∈ l ∧ x ∉ acc := by
  intro l
  induction l with
  | nil => intro acc x; simp [distinctsAux]
  | cons n ns ih =>
    intro acc x
    by_cases hn : acc.contains n = true
    · have hmem : n ∈ acc := List.elem_iff.1 hn
      rw [distinctsAux, if_pos hn, ih acc x]
      constructor
      · rintro ⟨h1, h2⟩
        exact ⟨List.mem_cons_of_mem n h1, h2⟩
      · rintro ⟨h1, h2⟩
        rcases List.mem_cons.1 h1 with h1 | h1
        · subst h1; exact absurd hmem h2
        · exact ⟨h1, h2⟩
    · have hmem : n ∉ acc := fun hc => hn (List.elem_iff.2 hc)
      rw [distinctsAux, if_neg hn]
      constructor
      · intro hx
        rcases List.mem_cons.1 hx with hx | hx
        · subst hx; exact ⟨List.mem_cons_self _ _, hmem⟩
        · obtain ⟨h1, h2⟩ := (ih (acc ++ [n]) x).1 hx
          simp only [List.mem_append, List.mem_singleton] at h2
          push_neg at h2
          exact ⟨List.mem_cons_of_mem n h1, h2.1⟩
      · rintro ⟨h1, h2⟩
        rcases List.mem_cons.1 h1 with h1 | h1
        · subst h1; exact List.mem_cons_self _ _
        · by_cases hxn : x = n
          · subst hxn; exact List.mem_cons_self _ _
          · refine List.mem_cons_of_mem n ((ih (acc ++ [n]) x).2 ⟨h1, ?_⟩)
            simp only [List.mem_append, List.mem_singleton]
            push_neg
            exact ⟨h2, hxn⟩

/-- Helper: membership in `distincts`. -/
theorem mem_distincts (l : List String) (x : String) : x ∈ distincts l ↔ x ∈ l := by
  rw [distincts, mem_distinctsAux]
  simp

/-- Helper: deduplicating after one extra trailing name. -/
theorem distinctsAux_append_one :
    ∀ (l acc : List String) (n : String),
      distinctsAux acc (l ++ [n]) =
        distinctsAux acc l ++ (if n ∈ acc ∨ n ∈ l then [] else [n]) := by
  intro l
  induction l with
  | nil =>
    intro acc n
    by_cases hn : acc.contains n = true
    · have hmem : n ∈ acc := List.elem_iff.1 hn
      simp [distinctsAux, hn, hmem]
    · have hmem : n ∉ acc := fun hc => hn (List.elem_iff.2 hc)
      simp [distinctsAux, hn, hmem]
  | cons x xs ih =>
    intro acc n
    by_cases hx : acc.contains x = true
    · have hxmem : x ∈ acc := List.elem_iff.1 hx
      rw [List.cons_append, distinctsAux, if_pos hx, distinctsAux, if_pos hx, ih acc n]
      by_cases hxn : n = x
      · subst hxn
        simp [hxmem]
      · have : (n ∈ acc ∨ n ∈ x :: xs) ↔ (n ∈ acc ∨ n ∈ xs) := by
          constructor
          · rintro (h | h)
            · exact Or.inl h
            · rcases List.mem_cons.1 h with h | h
              · exact absurd h hxn
              · exact Or.inr h
          · rintro (h | h)
            · exact Or.inl h
            · exact Or.inr (List.mem_cons_of_mem x h)
        rw [if_congr this rfl rfl]
    · rw [List.cons_append, distinctsAux, if_neg hx, distinctsAux, if_neg hx,
        ih (acc ++ [x]) n]
      have hcond : (n ∈ acc ++ [x] ∨ n ∈ xs) ↔ (n ∈ acc ∨ n ∈ x :: xs) := by
        simp only [List.mem_append, List.mem_singleton, List.mem_cons]
        tauto
      rw [if_congr hcond rfl rfl]
      simp

/-- Helper: deduplicating one extra trailing name, from the empty
accumulator. -/
theorem distincts_append_one (l : List String) (n : String) :
    distincts (l ++ [n]) = distincts l ++ (if n ∈ l then [] else [n]) := by
  rw [distincts, distinctsAux_append_one]
  simp [distincts]

/-- Helper: the deduplicated prefix is a prefix of the deduplicated list. -/
theorem distincts_prefix :
    ∀ (b a : List String), ∃ t, distincts (a ++ b) = distincts a ++ t := by
  intro b
  induction b with
  | nil => intro a; exact ⟨[], by simp⟩
  | cons x b' ih =>
    intro a
    obtain ⟨t', ht'⟩ := ih (a ++ [x])
    refine ⟨(if x ∈ a then [] else [x]) ++ t', ?_⟩
    have : a ++ x :: b' = (a ++ [x]) ++ b' := by simp
    rw [this, ht', distincts_append_one]
    simp

/-- Helper: the first-occurrence index ignores an appended tail for present
names. -/
theorem firstIdx_append_left :
    ∀ (A B : List String) (n : String), n ∈ A →
      firstIdx (A ++ B) n = firstIdx A n := by
  intro A
  induction A with
  | nil => intro B n h; cases h
  | cons x A' ih =>
    intro B n h
    by_cases hx : (x == n) = true
    · simp [firstIdx, hx]
    · rw [List.cons_append, firstIdx, if_neg (by simp [hx]), firstIdx,
        if_neg (by simp [hx])]
      have hn : n ∈ A' := by
        rcases List.mem_cons.1 h with h | h
        · exact absurd (by simp [h]) hx
        · exact h
      rw [ih B n hn]

/-- Helper: a fresh name appended at the end has index the previous length. -/
theorem firstIdx_append_new :
    ∀ (A : List String) (n : String), n ∉ A →
      firstIdx (A ++ [n]) n = A.length := by
  intro A
  induction A with
  | nil => intro n h; simp [firstIdx]
  | cons x A' ih =>
    intro n h
    have hx : (x == n) = false := by
      have : x ≠ n := fun he => h (by rw [he]; exact List.mem_cons_self _ _)
      simpa using this
    rw [List.cons_append, firstIdx, if_neg (by simp [hx]),
      ih n (fun hc => h (List.mem_cons_of_mem x hc))]
    simp

/-- Helper: the element at the first-occurrence index is the name itself. -/
theorem get?_firstIdx :
    ∀ (A : List String) (n : String), n ∈ A → A[firstIdx A n]? = some n := by
  intro A
  induction A with
  | nil => intro n h; cases h
  | cons x A' ih =>
    intro n h
    by_cases hx : (x == n) = true
    · have : x = n := by simpa using hx
      subst this
      simp [firstIdx]
    · have hn : n ∈ A' := by
        rcases List.mem_cons.1 h with h | h
        · exact absurd (by simp [h]) hx
        · exact h
      rw [firstIdx, if_neg (by simp [hx])]
      simpa using ih n hn

/-- Helper: distinct present names have distinct first-occurrence indices. -/
theorem firstIdx_inj {A : List String} {n1 n2 : String}
    (h1 : n1 ∈ A) (h2 : n2 ∈ A) (h : firstIdx A n1 = firstIdx A n2) :
    n1 = n2 := by
  have e1 := get?_firstIdx A n1 h1
  have e2 := get?_firstIdx A n2 h2
  rw [h] at e1
  rw [e1] at e2
  exact Option.some.inj e2

/-- Helper: numbering a table with one extra trailing name. -/
theorem tableFrom_append :
    ∀ (A : List String) (n : String) (k : Nat),
      tableFrom (A ++ [n]) k = tableFrom A k ++ [(n, "_v" ++ natStr (k + A.length))] := by
  intro A
  induction A with
  | nil => intro n k; simp [tableFrom]
  | cons x A' ih =>
    intro n k
    rw [List.cons_append, tableFrom, tableFrom, ih n (k + 1)]
    have harith : k + 1 + A'.length = k + (x :: A').length := by
      simp only [List.length_cons]
      omega
    rw [harith]
    simp

/-- Helper: lookup misses a table of other names. -/
theorem find?_tableFrom_not_mem :
    ∀ (A : List String) (n : String) (k : Nat), n ∉ A →
      (tableFrom A k).find? (fun p => p.1 == n) = none := by
  intro A
  induction A with
  | nil => intro n k _; rfl
  | cons x A' ih =>
    intro n k h
    have hx : ((x, "_v" ++ natStr k).1 == n) = false := by
      have : x ≠ n := fun he => h (by rw [he]; exact List.mem_cons_self _ _)
      simpa using this
    rw [tableFrom, List.find?_cons, hx]
    exact ih n (k + 1) (fun hc => h (List.mem_cons_of_mem x hc))

/-- Helper: lookup in a numbered table finds the first occurrence. -/
theorem find?_tableFrom_mem :
    ∀ (A : List String) (n : String) (k : Nat), n ∈ A →
      (tableFrom A k).find? (fun p => p.1 == n) =
        some (n, "_v" ++ natStr (k + firstIdx A n)) := by
  intro A
  induction A with
  | nil => intro n k h; cases h
  | cons x A' ih =>
    intro n k h
    by_cases hx : (x == n) = true
    · have hxe : x = n := by simpa using hx
      subst hxe
      rw [tableFrom, List.find?_cons]
      have hp : ((x, "_v" ++ natStr k).1 == x) = true := by simp
      rw [hp, firstIdx, if_pos (by simp)]
      simp
    · have hn : n ∈ A' := by
        rcases List.mem_cons.1 h with h | h
        · exact absurd (by simp [h]) hx
        · exact h
      have hp : ((x, "_v" ++ natStr k).1 == n) = false := by simpa using hx
      rw [tableFrom, List.find?_cons, hp, ih n (k + 1) hn, firstIdx,
        if_neg (by simp [hx])]
      have harith : k + 1 + firstIdx A' n = k + (firstIdx A' n + 1) := by omega
      rw [harith]

/-- Helper: one `getAlias` request advances `mappingOf` by one seen name and
returns the alias numbered by the name's first-occurrence rank. -/
theorem getAlias_mappingOf (seen : List String) (n : String) :
    getAlias (mappingOf seen) n =
      ("_v" ++ natStr (firstIdx (distincts (seen ++ [n])) n), mappingOf (seen ++ [n])) := by
  by_cases hmem : n ∈ seen
  · have hd : n ∈ distincts seen := (mem_distincts seen n).2 hmem
    have hfind := find?_tableFrom_mem (distincts seen) n 0 hd
    have hdeq : distincts (seen ++ [n]) = distincts seen := by
      rw [distincts_append_one, if_pos hmem]
      simp
    unfold getAlias lookupAlias mappingOf
    rw [hdeq, hfind]
    simp
  · have hd : n ∉ distincts seen := fun hc => hmem ((mem_distincts seen n).1 hc)
    have hfind := find?_tableFrom_not_mem (distincts seen) n 0 hd
    have hdeq : distincts (seen ++ [n]) = distincts seen ++ [n] := by
      rw [distincts_append_one, if_neg hmem]
    unfold getAlias lookupAlias mappingOf
    rw [hdeq, hfind]
    simp only [Option.map_none']
    rw [tableFrom_append, firstIdx_append_new (distincts seen) n hd]
    simp

/-- Helper: one alias is returned per request. -/
theorem aliasTrace_length :
    ∀ (reqs : List String) (m : VarMapping),
      (aliasTrace m reqs).length = reqs.length := by
  intro reqs
  induction reqs with
  | nil => intro m; rfl
  | cons x ns ih => intro m; simp [aliasTrace, ih]

/-- Helper: the alias returned for the i-th request is numbered by the rank of
the name's first occurrence among the distinct names requested so far. -/
theorem aliasTrace_formula :
    ∀ (reqs seen : List String) (i : Nat) (hi : i < reqs.length),
      (aliasTrace (mappingOf seen) reqs)[i]? =
        some ("_v" ++ natStr (firstIdx (distincts (seen ++ reqs.take (i + 1)))
          (reqs.get ⟨i, hi⟩))) := by
  intro reqs
  induction reqs with
  | nil => intro seen i hi; simp at hi
  | cons n ns ih =>
    intro seen i hi
    cases i with
    | zero =>
      rw [aliasTrace, getAlias_mappingOf]
      simp [List.take]
    | succ i =>
      rw [aliasTrace, getAlias_mappingOf]
      simp only [List.getElem?_cons_succ]
      rw [ih (seen ++ [n]) i (by simp only [List.length_cons] at hi; omega)]
      have hshape : (seen ++ [n]) ++ ns.take (i + 1) = seen ++ (n :: ns).take (i + 1 + 1) := by
        simp [List.take]
      rw [hshape]
      rfl

/-- Helper: the alias of the i-th request, numbered over the whole pass. -/
theorem aliasTrace_full (reqs : List String) (i : Nat) (hi : i < reqs.length) :
    (aliasTrace initMapping reqs)[i]? =
      some ("_v" ++ natStr (firstIdx (distincts reqs) (reqs.get ⟨i, hi⟩))) := by
  have h0 : initMapping = mappingOf [] := rfl
  rw [h0, aliasTrace_formula reqs [] i hi]
  have hname : reqs.get ⟨i, hi⟩ ∈ reqs.take (i + 1) := by
    have hlen : i < (reqs.take (i + 1)).length := by
      simp only [List.length_take]
      omega
    have hget : (reqs.take (i + 1)).get ⟨i, hlen⟩ = reqs.get ⟨i, hi⟩ := by
      simp [List.get_take]
    rw [← hget]
    exact List.get_mem _ _ _
  have hnamed : reqs.get ⟨i, hi⟩ ∈ distincts (reqs.take (i + 1)) :=
    (mem_distincts _ _).2 hname
  obtain ⟨t, ht⟩ := distincts_prefix (reqs.drop (i + 1)) (reqs.take (i + 1))
  rw [List.take_append_drop] at ht
  rw [List.nil_append, ht, firstIdx_append_left _ t _ hnamed]

/-- C6: within one pass, alias allocation is stable and injective — one alias
per request, the alias of each request is `_v{k}` where `k` is the 0-based
rank of the identifier's first occurrence among the distinct identifiers
requested, repeated requests for one identifier return the same alias, and
distinct identifiers never share an alias. -/
theorem C6_alias_allocation_stable_injective (reqs : List String) (i j : Nat)
    (hi : i < reqs.length) (hj : j < reqs.length) :
    (aliasTrace initMapping reqs).length = reqs.length ∧
    (aliasTrace initMapping reqs)[i]? =
      some ("_v" ++ natStr (firstIdx (distincts reqs) (reqs.get ⟨i, hi⟩))) ∧
    (reqs.get ⟨i, hi⟩ = reqs.get ⟨j, hj⟩ →
      (aliasTrace initMapping reqs)[i]? = (aliasTrace initMapping reqs)[j]?) ∧
    (reqs.get ⟨i, hi⟩ ≠ reqs.get ⟨j, hj⟩ →
      (aliasTrace initMapping reqs)[i]? ≠ (aliasTrace initMapping reqs)[j]?) := by
  refine ⟨aliasTrace_length reqs initMapping, aliasTrace_full reqs i hi, ?_, ?_⟩
  · intro he
    rw [aliasTrace_full reqs i hi, aliasTrace_full reqs j hj, he]
  · intro hne hcontra
    rw [aliasTrace_full reqs i hi, aliasTrace_full reqs j hj] at hcontra
    have hstr := Option.some.inj hcontra
    have hidx := alias_string_inj hstr
    have hm1 : reqs.get ⟨i, hi⟩ ∈ distincts reqs :=
      (mem_distincts _ _).2 (List.get_mem _ _ _)
    have hm2 : reqs.get ⟨j, hj⟩ ∈ distincts reqs :=
      (mem_distincts _ _).2 (List.get_mem _ _ _)
    exact hne (firstIdx_inj hm1 hm2 hidx)

/-- C6 witness: the request sequence 水, 电, 水. -/
theorem C6_alias_allocation_stable_injective_witness :
    0 < (["水", "电", "水"] : List String).length ∧
    1 < (["水", "电", "水"] : List String).length ∧
    ((aliasTrace initMapping ["水", "电", "水"]).length =
        (["水", "电", "水"] : List String).length ∧
      (aliasTrace initMapping ["水", "电", "水"])[0]? =
        some ("_v" ++ natStr (firstIdx (distincts ["水", "电", "水"])
          ((["水", "电", "水"] : List String).get ⟨0, by decide⟩))) ∧
      ((["水", "电", "水"] : List String).get ⟨0, by decide⟩ =
          (["水", "电", "水"] : List String).get ⟨1, by decide⟩ →
        (aliasTrace initMapping ["水", "电", "水"])[0]? =
          (aliasTrace initMapping ["水", "电", "水"])[1]?) ∧
      ((["水", "电", "水"] : List String).get ⟨0, by decide⟩ ≠
          (["水", "电", "水"] : List String).get ⟨1, by decide⟩ →
        (aliasTrace initMapping ["水", "电", "水"])[0]? ≠
          (aliasTrace initMapping ["水", "电", "水"])[1]?)) :=
  ⟨by decide, by decide,
   C6_alias_allocation_stable_injective ["水", "电", "水"] 0 1 (by decide) (by decide)⟩

/-- Helper: `contains` is false for a non-member. -/
theorem contains_eq_false_of_not_mem {l : List Char} {c : Char} (h : c ∉ l) :
    l.contains c = false := by
  cases hc : l.contains c with
  | false => rfl
  | true => exact absurd (List.elem_iff.1 hc) h

/-- Helper: distinct characters from digit-ness. -/
theorem digit_ne_of {c x : Char} (h : c.isDigit = true) (hx : x.isDigit = false) :
    c ≠ x := by
  intro he
  rw [he, hx] at h
  cases h

/-- Helper: digits are word characters for `\b`. -/
theorem digit_isWordCharJs {c : Char} (h : c.isDigit = true) :
    isWordCharJs c = true := by
  unfold isWordCharJs
  have : c.isAlphanum = true := by
    unfold Char.isAlphanum
    simp [h]
  simp [this]

/-- Optional leading minus sign of a raw auto-notation string. -/
def SignOpt (sg : List Char) : Prop := sg = [] ∨ sg = ['-']

/-- Nonempty run of ASCII decimal digits. -/
def DigitsNE (d : List Char) : Prop := d ≠ [] ∧ ∀ c ∈ d, c.isDigit = true

/-- Optional fractional part: a decimal point followed by digits. -/
def FracOpt (f : List Char) : Prop := f = [] ∨ ∃ g, f = '.' :: g ∧ DigitsNE g

/-- Optional exponent suffix: lowercase `e`, then sign and digits. -/
def ExpOpt (ex : List Char) : Prop :=
  ex = [] ∨ ∃ t, ex = 'e' :: t ∧ ∀ c ∈ t, c.isDigit = true ∨ c = '+' ∨ c = '-'

/-- A stored raw auto-notation string: a decimal numeral (optional sign, \
digits, at most one decimal point with digits after it), optionally followed \
by a lowercase-`e` exponent suffix. -/
def ValidRaw (s : String) : Prop :=
  ∃ sg d f ex, s.data = sg ++ d ++ f ++ ex ∧
    SignOpt sg ∧ DigitsNE d ∧ FracOpt f ∧ ExpOpt ex

/-- Helper: the split at the first `e` of a mantissa-exponent append. -/
theorem span_e (M E : List Char) (hM : ∀ x ∈ M, (x != 'e') = true)
    (hE : E = [] ∨ ∃ t, E = 'e' :: t) :
    (M ++ E).takeWhile (fun c => c != 'e') = M ∧
    (M ++ E).dropWhile (fun c => c != 'e') = E := by
  rcases hE with rfl | ⟨t, rfl⟩
  · rw [List.append_nil]
    exact ⟨List.takeWhile_eq_self_iff.mpr hM, List.dropWhile_eq_nil_iff.mpr hM⟩
  · obtain ⟨h1, h2⟩ := takeWhile_dropWhile_append_stop (fun c => c != 'e') M ('e' :: t)
      (by intro c hc; simp only [List.head?_cons, Option.some.injEq] at hc; subst hc; decide)
    rw [h1, h2, List.takeWhile_eq_self_iff.mpr hM, List.dropWhile_eq_nil_iff.mpr hM]
    exact ⟨rfl, rfl⟩

/-- Helper: the split at the first `.` of an integer-fraction append. -/
theorem span_dot (A f : List Char) (hA : ∀ x ∈ A, (x != '.') = true)
    (hf : f = [] ∨ ∃ g, f = '.' :: g) :
    (A ++ f).takeWhile (fun c => c != '.') = A ∧
    (A ++ f).dropWhile (fun c => c != '.') = f := by
  rcases hf with rfl | ⟨g, rfl⟩
  · rw [List.append_nil]
    exact ⟨List.takeWhile_eq_self_iff.mpr hA, List.dropWhile_eq_nil_iff.mpr hA⟩
  · obtain ⟨h1, h2⟩ := takeWhile_dropWhile_append_stop (fun c => c != '.') A ('.' :: g)
      (by intro c hc; simp only [List.head?_cons, Option.some.injEq] at hc; subst hc; decide)
    rw [h1, h2, List.takeWhile_eq_self_iff.mpr hA, List.dropWhile_eq_nil_iff.mpr hA]
    exact ⟨rfl, rfl⟩

/-- Helper: stripping is the identity on a dot-free mantissa. -/
theorem stripZeros_no_dot {m : List Char} (h : '.' ∉ m) : stripZeros m = m := by
  unfold stripZeros
  rw [contains_eq_false_of_not_mem h]
  rfl

/-- Helper: stripping is the identity when the fraction does not end in a
zero. -/
theorem stripZeros_fixed {A g1 : List Char}
    (hg1 : g1 ≠ []) (hlast : g1.getLast? ≠ some '0') :
    stripZeros (A ++ '.' :: g1) = A ++ '.' :: g1 := by
  obtain ⟨h0, t0, hrev⟩ : ∃ h0 t0, g1.reverse = h0 :: t0 := by
    cases hg : g1.reverse with
    | nil => exact absurd (by simpa using congrArg List.reverse hg) hg1
    | cons a b => exact ⟨a, b, rfl⟩
  have hh0 : (h0 == '0') = false := by
    have hh : g1.reverse.head? = g1.getLast? := List.head?_reverse g1
    rw [hrev] at hh
    simp only [List.head?_cons] at hh
    have : h0 ≠ '0' := fun he => hlast (by rw [← hh, he])
    simpa using this
  have hrshape : (A ++ '.' :: g1).reverse = h0 :: (t0 ++ '.' :: A.reverse) := by
    rw [List.reverse_append]
    simp [hrev]
  unfold stripZeros
  split
  case isFalse => rfl
  case isTrue =>
    simp only [hrshape]
    rw [@List.takeWhile_cons_of_neg _ (fun c => c == '0') h0 (t0 ++ '.' :: A.reverse)
      (by simp [hh0])]
    simp

/-- Helper: the head of a nonempty `dropWhile` fails the predicate. -/
theorem dropWhile_head_false {q : Char → Bool} :
    ∀ {l w : List Char} {c : Char}, l.dropWhile q = c :: w → q c = false := by
  intro l
  induction l with
  | nil => intro w c h; cases h
  | cons x xs ih =>
    intro w c h
    by_cases hx : q x = true
    · rw [List.dropWhile_cons_of_pos hx] at h
      exact ih h
    · rw [List.dropWhile_cons_of_neg hx] at h
      injection h with h1 h2
      subst h1
      cases hq : q x with
      | false => rfl
      | true => exact absurd hq hx

/-- Helper: stripping a valid mantissa yields the integer part with a
trailing-zero-free fractional part (possibly none). -/
theorem stripZeros_digits {A g : List Char}
    (hA : ∀ x ∈ A, x ≠ '.') (hg0 : g ≠ []) (hg : ∀ c ∈ g, c.isDigit = true) :
    ∃ f', stripZeros (A ++ '.' :: g) = A ++ f' ∧
      (f' = [] ∨ ∃ g1, f' = '.' :: g1 ∧ g1 ≠ [] ∧ (∀ c ∈ g1, c.isDigit = true) ∧
        g1.getLast? ≠ some '0') := by
  cases hz : g.reverse.takeWhile (fun c => c == '0') with
  | nil =>
    have hlast : g.getLast? ≠ some '0' := by
      cases hgr : g.reverse with
      | nil => exact absurd (by simpa using congrArg List.reverse hgr) hg0
      | cons h0 t0 =>
        rw [hgr] at hz
        have hh0 : (h0 == '0') = false := by
          cases hq : (h0 == '0') with
          | false => rfl
          | true =>
            rw [@List.takeWhile_cons_of_pos _ (fun c => c == '0') h0 t0 hq] at hz
            cases hz
        have hh : g.getLast? = some h0 := by
          rw [← List.head?_reverse, hgr]
          rfl
        rw [hh]
        intro he
        have he' : h0 = '0' := Option.some.inj he
        rw [he'] at hh0
        simp at hh0
    exact ⟨'.' :: g, stripZeros_fixed hg0 hlast, Or.inr ⟨g, rfl, hg0, hg, hlast⟩⟩
  | cons zc zt =>
    have hcont : (A ++ '.' :: g).contains '.' = true :=
      List.elem_eq_true_of_mem (List.mem_append.2 (Or.inr (List.mem_cons_self _ _)))
    have hstop : ∀ c, ('.' :: A.reverse).head? = some c → (c == '0') = false := by
      intro c hc
      simp only [List.head?_cons, Option.some.injEq] at hc
      subst hc
      decide
    obtain ⟨htw, hdw⟩ := takeWhile_dropWhile_append_stop (fun c => c == '0')
      g.reverse ('.' :: A.reverse) hstop
    have hrshape : (A ++ '.' :: g).reverse = g.reverse ++ '.' :: A.reverse := by
      rw [List.reverse_append]
      simp
    unfold stripZeros
    split
    case isFalse hcond => exact absurd hcont hcond
    case isTrue =>
      simp only [hrshape]
      rw [htw, hdw, hz]
      cases hw : g.reverse.dropWhile (fun c => c == '0') with
      | nil =>
        refine ⟨[], ?_, Or.inl rfl⟩
        simp
      | cons wc w' =>
        have hwc0 : (wc == '0') = false :=
          @dropWhile_head_false (fun c => c == '0') g.reverse w' wc hw
        have hwcg : wc ∈ g := by
          have h1 : wc ∈ g.reverse.dropWhile (fun c => c == '0') := by
            rw [hw]; exact List.mem_cons_self _ _
          exact List.mem_reverse.1 ((List.dropWhile_sublist _).mem h1)
        have hwcd : wc.isDigit = true := hg wc hwcg
        have hwcdot : wc ≠ '.' := digit_ne_of hwcd (by decide)
        refine ⟨'.' :: (wc :: w').reverse, ?_, Or.inr ⟨(wc :: w').reverse, rfl, by simp, ?_, ?_⟩⟩
        · rw [if_neg (by simp)]
          rw [List.cons_append]
          split
          · rename_i rest2 hmatch
            exfalso
            injection hmatch with hm1 hm2
            exact hwcdot hm1
          · rw [List.reverse_cons, List.reverse_append]
            simp
        · intro x hx
          have hxg : x ∈ g := by
            have h1 : x ∈ g.reverse.dropWhile (fun c => c == '0') := by
              rw [hw]
              exact List.mem_reverse.1 hx
            exact List.mem_reverse.1 ((List.dropWhile_sublist _).mem h1)
          exact hg x hxg
        · have hget : ((wc :: w').reverse).getLast? = some wc := by
            rw [← List.head?_reverse, List.reverse_reverse]
            rfl
          rw [hget]
          intro he
          have he' : wc = '0' := Option.some.inj he
          rw [he'] at hwc0
          simp at hwc0

/-- Helper: grouping only inserts commas. -/
theorem groupAux_chars :
    ∀ (l : List Char) (prev x : Char), x ∈ groupAux prev l → x ∈ l ∨ x = ',' := by
  intro l
  induction l with
  | nil => intro prev x h; cases h
  | cons c cs ih =>
    intro prev x h
    rw [groupAux] at h
    split at h
    · rcases List.mem_cons.1 h with h | h
      · exact Or.inr h
      · rcases List.mem_cons.1 h with h | h
        · exact Or.inl (by rw [h]; exact List.mem_cons_self _ _)
        · rcases ih c x h with h | h
          · exact Or.inl (List.mem_cons_of_mem c h)
          · exact Or.inr h
    · rcases List.mem_cons.1 h with h | h
      · exact Or.inl (by rw [h]; exact List.mem_cons_self _ _)
      · rcases ih c x h with h | h
        · exact Or.inl (List.mem_cons_of_mem c h)
        · exact Or.inr h

/-- Helper: after grouping an all-digit list, the leading digit run of the
output has length the input length modulo three (a comma is inserted exactly
at multiples of three). -/
theorem groupAux_leadRun :
    ∀ (l : List Char) (prev : Char), (∀ c ∈ l, c.isDigit = true) →
      isWordCharJs prev = true →
      ((groupAux prev l).takeWhile Char.isDigit).length = l.length % 3 := by
  intro l
  induction l with
  | nil => intro prev _ _; simp [groupAux]
  | cons c cs ih =>
    intro prev hall hw
    have hc : c.isDigit = true := hall c (List.mem_cons_self _ _)
    have hcs : ∀ x ∈ cs, x.isDigit = true := fun x hx => hall x (List.mem_cons_of_mem c hx)
    have htw : (c :: cs).takeWhile Char.isDigit = c :: cs :=
      List.takeWhile_eq_self_iff.mpr hall
    rw [groupAux]
    by_cases hmod : (cs.length + 1) % 3 = 0
    · have hcond : (isWordCharJs prev && c.isDigit
          && ((c :: cs).takeWhile Char.isDigit).length % 3 == 0) = true := by
        rw [htw]
        simp only [hw, hc, List.length_cons, Bool.and_true, Bool.true_and]
        simp [hmod]
      rw [if_pos hcond]
      rw [@List.takeWhile_cons_of_neg _ Char.isDigit ',' (c :: groupAux c cs) (by decide)]
      have hlen : (c :: cs).length = cs.length + 1 := rfl
      simp only [List.length_nil]
      omega
    · have hcond : (isWordCharJs prev && c.isDigit
          && ((c :: cs).takeWhile Char.isDigit).length % 3 == 0) = false := by
        rw [htw]
        simp only [hw, hc, List.length_cons, Bool.and_true, Bool.true_and]
        simpa using hmod
      rw [if_neg (by simp [hcond])]
      rw [@List.takeWhile_cons_of_pos _ Char.isDigit c (groupAux c cs) hc]
      rw [List.length_cons, ih c hcs (digit_isWordCharJs hc)]
      have hlen : (c :: cs).length = cs.length + 1 := rfl
      omega

/-- Helper: grouping an all-digit list is idempotent, whatever precedes it. -/
theorem groupAux_idem :
    ∀ (l : List Char) (prev : Char), (∀ c ∈ l, c.isDigit = true) →
      groupAux prev (groupAux prev l) = groupAux prev l := by
  intro l
  induction l with
  | nil => intro prev _; rfl
  | cons c cs ih =>
    intro prev hall
    have hc : c.isDigit = true := hall c (List.mem_cons_self _ _)
    have hcs : ∀ x ∈ cs, x.isDigit = true := fun x hx => hall x (List.mem_cons_of_mem c hx)
    have htw : (c :: cs).takeWhile Char.isDigit = c :: cs :=
      List.takeWhile_eq_self_iff.mpr hall
    by_cases hw : isWordCharJs prev = true
    · by_cases hmod : (cs.length + 1) % 3 = 0
      · have hcond : (isWordCharJs prev && c.isDigit
            && ((c :: cs).takeWhile Char.isDigit).length % 3 == 0) = true := by
          rw [htw]
          simp only [hw, hc, List.length_cons, Bool.and_true, Bool.true_and]
          simp [hmod]
        rw [groupAux, if_pos hcond]
        have hcomma : (',').isDigit = false := by decide
        rw [groupAux, if_neg (by simp [hcomma])]
        congr 1
        have hcw : isWordCharJs ',' = false := by decide
        rw [groupAux, if_neg (by simp [hcw])]
        rw [ih c hcs]
      · have hcond : (isWordCharJs prev && c.isDigit
            && ((c :: cs).takeWhile Char.isDigit).length % 3 == 0) = false := by
          rw [htw]
          simp only [hw, hc, List.length_cons, Bool.and_true, Bool.true_and]
          simpa using hmod
        rw [groupAux, if_neg (by simp [hcond])]
        have hlead := groupAux_leadRun cs c hcs (digit_isWordCharJs hc)
        have hcond2 : (isWordCharJs prev && c.isDigit &&
            ((c :: groupAux c cs).takeWhile Char.isDigit).length % 3 == 0) = false := by
          rw [@List.takeWhile_cons_of_pos _ Char.isDigit c (groupAux c cs) hc]
          rw [List.length_cons, hlead]
          simp only [hw, hc, Bool.and_true, Bool.true_and]
          have hne : (cs.length % 3 + 1) % 3 ≠ 0 := by omega
          simpa using hne
        rw [groupAux, if_neg (by simp [hcond2])]
        rw [ih c hcs]
    · have hw' : isWordCharJs prev = false := by
        cases hq : isWordCharJs prev with
        | false => rfl
        | true => exact absurd hq hw
      rw [groupAux, if_neg (by simp [hw'])]
      rw [groupAux, if_neg (by simp [hw'])]
      rw [ih c hcs]

/-- Helper: characters of a grouped list come from the input or are commas. -/
theorem groupInt_chars {l : List Char} {x : Char} (h : x ∈ groupInt l) :
    x ∈ l ∨ x = ',' := by
  cases l with
  | nil => cases h
  | cons c cs =>
    rw [groupInt] at h
    rcases List.mem_cons.1 h with h | h
    · exact Or.inl (by rw [h]; exact List.mem_cons_self _ _)
    · rcases groupAux_chars cs c x h with h | h
      · exact Or.inl (List.mem_cons_of_mem c h)
      · exact Or.inr h

/-- Helper: grouping a signed digit string is idempotent. -/
theorem groupInt_idem_signed {sg d : List Char} (hsg : SignOpt sg)
    (hd : d ≠ []) (hdig : ∀ c ∈ d, c.isDigit = true) :
    groupInt (groupInt (sg ++ d)) = groupInt (sg ++ d) := by
  rcases hsg with rfl | rfl
  · rw [List.nil_append]
    cases d with
    | nil => rfl
    | cons c cs =>
      rw [groupInt, groupInt]
      rw [groupAux_idem cs c (fun x hx => hdig x (List.mem_cons_of_mem c hx))]
  · rw [List.singleton_append]
    rw [groupInt, groupInt]
    rw [groupAux_idem d '-' hdig]

/-- Helper: the formatter output shape is a fixed point — an integer part with
no `e` or `.`, an already-stripped fractional part, an exponent suffix, and
(in fixed-point mode) an already-grouped integer part. -/
theorem formatDisplayL_fixed {A f' ex : List Char}
    (hA : ∀ x ∈ A, x ≠ 'e' ∧ x ≠ '.')
    (hf' : f' = [] ∨ ∃ g1, f' = '.' :: g1 ∧ g1 ≠ [] ∧
      (∀ c ∈ g1, c.isDigit = true) ∧ g1.getLast? ≠ some '0')
    (hex : ex = [] ∨ ∃ t, ex = 'e' :: t)
    (hgroup : ex = [] → groupInt A = A) :
    formatDisplayL ((A ++ f') ++ ex) = (A ++ f') ++ ex := by
  have hMe : ∀ x ∈ A ++ f', (x != 'e') = true := by
    intro x hx
    rcases List.mem_append.1 hx with hx | hx
    · simpa using (hA x hx).1
    · rcases hf' with rfl | ⟨g1, rfl, hne, hdig, hlast⟩
      · cases hx
      · rcases List.mem_cons.1 hx with rfl | hx
        · decide
        · simpa using digit_ne_of (hdig x hx) (by decide)
  obtain ⟨htw, hdw⟩ := span_e (A ++ f') ex hMe hex
  have hstrip : stripZeros (A ++ f') = A ++ f' := by
    rcases hf' with rfl | ⟨g1, rfl, hne, hdig, hlast⟩
    · rw [List.append_nil]
      refine stripZeros_no_dot ?_
      intro hdot
      exact (hA '.' hdot).2 rfl
    · exact stripZeros_fixed hne hlast
  have hAdot : ∀ x ∈ A, (x != '.') = true := fun x hx => by simpa using (hA x hx).2
  have hfdot : f' = [] ∨ ∃ g, f' = '.' :: g := by
    rcases hf' with rfl | ⟨g1, rfl, -, -, -⟩
    · exact Or.inl rfl
    · exact Or.inr ⟨g1, rfl⟩
  obtain ⟨htd, hdd⟩ := span_dot A f' hAdot hfdot
  unfold formatDisplayL
  simp only [htw, hdw, hstrip, htd, hdd]
  rcases hex with rfl | ⟨t, rfl⟩
  · rw [hgroup rfl]
    simp
  · rw [if_neg (by simp)]

/-- Helper: one application of the formatter to a valid raw string produces
the fixed-point shape — grouped integer part (in fixed-point mode), stripped
fraction, untouched exponent suffix. -/
theorem formatDisplayL_valid {sg d f ex : List Char}
    (hsg : SignOpt sg) (hd : DigitsNE d) (hf : FracOpt f) (hex : ExpOpt ex) :
    ∃ A f',
      formatDisplayL (((sg ++ d) ++ f) ++ ex) = (A ++ f') ++ ex ∧
      (∀ x ∈ A, x ≠ 'e' ∧ x ≠ '.') ∧
      (f' = [] ∨ ∃ g1, f' = '.' :: g1 ∧ g1 ≠ [] ∧ (∀ c ∈ g1, c.isDigit = true) ∧
        g1.getLast? ≠ some '0') ∧
      (ex = [] → groupInt A = A) := by
  obtain ⟨hdne, hdig⟩ := hd
  have hsgchars : ∀ x ∈ sg, x = '-' := by
    rcases hsg with rfl | rfl
    · intro x hx; cases hx
    · intro x hx
      rcases List.mem_cons.1 hx with rfl | hx
      · rfl
      · cases hx
  have hMe : ∀ x ∈ (sg ++ d) ++ f, (x != 'e') = true := by
    intro x hx
    rcases List.mem_append.1 hx with hx | hx
    · rcases List.mem_append.1 hx with hx | hx
      · rw [hsgchars x hx]; decide
      · simpa using digit_ne_of (hdig x hx) (by decide)
    · rcases hf with rfl | ⟨g, rfl, hgne, hgdig⟩
      · cases hx
      · rcases List.mem_cons.1 hx with rfl | hx
        · decide
        · simpa using digit_ne_of (hgdig x hx) (by decide)
  have hexshape : ex = [] ∨ ∃ t, ex = 'e' :: t := by
    rcases hex with rfl | ⟨t, rfl, -⟩
    · exact Or.inl rfl
    · exact Or.inr ⟨t, rfl⟩
  obtain ⟨htw, hdw⟩ := span_e ((sg ++ d) ++ f) ex hMe hexshape
  have hAdotchars : ∀ x ∈ sg ++ d, x ≠ '.' := by
    intro x hx
    rcases List.mem_append.1 hx with hx | hx
    · rw [hsgchars x hx]; decide
    · exact digit_ne_of (hdig x hx) (by decide)
  obtain ⟨f', hstrip, hf'⟩ :
      ∃ f', stripZeros ((sg ++ d) ++ f) = (sg ++ d) ++ f' ∧
        (f' = [] ∨ ∃ g1, f' = '.' :: g1 ∧ g1 ≠ [] ∧ (∀ c ∈ g1, c.isDigit = true) ∧
          g1.getLast? ≠ some '0') := by
    rcases hf with rfl | ⟨g, rfl, hgne, hgdig⟩
    · refine ⟨[], ?_, Or.inl rfl⟩
      rw [List.append_nil]
      refine stripZeros_no_dot ?_
      intro hdot
      exact hAdotchars '.' hdot rfl
    · exact stripZeros_digits hAdotchars hgne hgdig
  have hAdot' : ∀ x ∈ sg ++ d, (x != '.') = true := fun x hx => by
    simpa using hAdotchars x hx
  have hfd : f' = [] ∨ ∃ g, f' = '.' :: g := by
    rcases hf' with rfl | ⟨g1, rfl, -, -, -⟩
    · exact Or.inl rfl
    · exact Or.inr ⟨g1, rfl⟩
  obtain ⟨htd, hdd⟩ := span_dot (sg ++ d) f' hAdot' hfd
  rcases hexshape with rfl | ⟨t, rfl⟩
  · refine ⟨groupInt (sg ++ d), f', ?_, ?_, hf',
      fun _ => groupInt_idem_signed hsg hdne hdig⟩
    · unfold formatDisplayL
      simp only [htw, hdw, hstrip, htd, hdd]
      simp
    · intro x hx
      rcases groupInt_chars hx with hx | rfl
      · rcases List.mem_append.1 hx with hx | hx
        · rw [hsgchars x hx]
          exact ⟨by decide, by decide⟩
        · exact ⟨digit_ne_of (hdig x hx) (by decide),
            digit_ne_of (hdig x hx) (by decide)⟩
      · exact ⟨by decide, by decide⟩
  · refine ⟨sg ++ d, f', ?_, ?_, hf', by intro h; simp at h⟩
    · unfold formatDisplayL
      simp only [htw, hdw, hstrip]
      rw [if_neg (by simp)]
    · intro x hx
      rcases List.mem_append.1 hx with hx | hx
      · rw [hsgchars x hx]
        exact ⟨by decide, by decide⟩
      · exact ⟨digit_ne_of (hdig x hx) (by decide),
          digit_ne_of (hdig x hx) (by decide)⟩

/-- C7: the presentation formatter is idempotent on every stored raw
auto-notation string (a decimal numeral with at most one decimal point,
optionally followed by a lowercase-`e` exponent suffix). -/
theorem C7_formatter_idempotent (s : String) (h : ValidRaw s) :
    formatNumber (formatNumber s) = formatNumber s := by
  obtain ⟨sg, d, f, ex, hdata, hsg, hd, hf, hex⟩ := h
  obtain ⟨A, f', hfirst, hA, hf', hgroup⟩ := formatDisplayL_valid hsg hd hf hex
  have hassoc : s.data = ((sg ++ d) ++ f) ++ ex := by
    rw [hdata]
  have hexshape : ex = [] ∨ ∃ t, ex = 'e' :: t := by
    rcases hex with rfl | ⟨t, rfl, -⟩
    · exact Or.inl rfl
    · exact Or.inr ⟨t, rfl⟩
  show formatDisplay (formatDisplay s) = formatDisplay s
  apply string_data_inj
  show formatDisplayL (formatDisplayL s.data) = formatDisplayL s.data
  rw [hassoc, hfirst]
  exact formatDisplayL_fixed hA hf' hexshape hgroup

/-- C7 witness: the raw string `1000.50`. -/
theorem C7_formatter_idempotent_witness :
    ValidRaw "1000.50" ∧
    formatNumber (formatNumber "1000.50") = formatNumber "1000.50" := by
  have hv : ValidRaw "1000.50" :=
    ⟨[], ['1', '0', '0', '0'], ['.', '5', '0'], [], by decide, Or.inl rfl,
     ⟨by decide, by decide⟩,
     Or.inr ⟨['5', '0'], rfl, ⟨by decide, by decide⟩⟩, Or.inl rfl⟩
  exact ⟨hv, C7_formatter_idempotent "1000.50" hv⟩

end Calcnote
